import Mathlib

/-!
A shallow embedding of the `breccia` append-only blob store
(src/lib.rs, src/marker.rs, src/offset.rs, src/header.rs).

The store's body is modelled as a `List Nat` of 8-byte little-endian words
(each value below `2 ^ 64`); blobs are `List Nat` of bytes (each below `256`).
The implementation assumes a 64-bit little-endian platform, on which Rust's
`usize::to_le` / `usize::from_le` are the identity, so a `Marker` is modelled
directly by its numeric value.
-/

namespace Breccia

/-- Marker field extraction, from `Marker::offset` (src/marker.rs):
`usize::from_le(self.0) & !(0b1111 << 60)`, i.e. the low 60 bits. -/
def markerOffset (w : Nat) : Nat := w % 2 ^ 60

/-- From `Marker::padding_len` (src/marker.rs): `usize::from_le(self.0) >> 61`.
Words are 64-bit, so the result is below 8; the `% 8` makes that explicit for
out-of-range inputs (it is the identity on every real word). -/
def paddingLen (w : Nat) : Nat := (w >>> 61) % 8

/-- The `State` enum from src/marker.rs: `Clean = 0`, `Dirty = 1`. -/
inductive State where
  | Clean : State
  | Dirty : State
deriving DecidableEq, Repr

/-- The numeric value of a `State` (its discriminant in the source). -/
def State.bit : State → Nat
  | .Clean => 0
  | .Dirty => 1

/-- From `Marker::state` (src/marker.rs): bit 60 clear means `Clean`. -/
def markerState (w : Nat) : State :=
  if w / 2 ^ 60 % 2 = 0 then .Clean else .Dirty

/-- From `Marker::is_padding` (src/marker.rs):
true iff `padding_len == 7 && state == Dirty`. -/
def isPadding (w : Nat) : Bool :=
  paddingLen w == 7 && markerState w == .Dirty

/-- From `Marker::new` (src/marker.rs):
`raw = offset.raw; raw |= padding_len << 61; raw |= (dirty as usize) << 60`. -/
def mkMarker (off pad : Nat) (s : State) : Nat :=
  off ||| (pad <<< 61) ||| (s.bit <<< 60)

/-- From `Marker::new_padding` (src/marker.rs): `Marker::new(offset, 7, Dirty)`. -/
def mkPadding (off : Nat) : Nat := mkMarker off 7 .Dirty

/-- From `Marker::set_state` (src/marker.rs):
`self.0 = (self.0 & !(1 << 60)) | ((state as usize) << 60)`; the 64-bit
complement mask `!(1 << 60)` is `2 ^ 64 - 1 - 2 ^ 60`. -/
def setState (w : Nat) (s : State) : Nat :=
  (w &&& (2 ^ 64 - 1 - 2 ^ 60)) ||| (s.bit <<< 60)

/-- From `Marker::to_bytes` (src/marker.rs): the 8 little-endian bytes. -/
def toBytes (w : Nat) : List Nat :=
  [w % 256, w / 2 ^ 8 % 256, w / 2 ^ 16 % 256, w / 2 ^ 24 % 256,
   w / 2 ^ 32 % 256, w / 2 ^ 40 % 256, w / 2 ^ 48 % 256, w / 2 ^ 56 % 256]

/-- From `impl From<[u8; 8]> for Marker` (src/marker.rs):
`usize::from_le_bytes`, the little-endian recombination. -/
def fromBytes (bs : List Nat) : Nat :=
  bs.foldr (fun b acc => b + 256 * acc) 0

/-- From `Marker::slice_to_bytes` (src/marker.rs): a word slice viewed as its
underlying little-endian bytes. -/
def bytesOfWords (ws : List Nat) : List Nat :=
  ws.foldr (fun w acc => toBytes w ++ acc) []

/-! ### Extraction lemmas for the marker bit fields -/

theorem State.bit_lt_two (s : State) : s.bit < 2 := by
  cases s <;> simp [State.bit]

theorem mkMarker_lt_two_pow (off pad : Nat) (s : State)
    (hoff : off < 2 ^ 60) (hpad : pad ≤ 7) :
    mkMarker off pad s < 2 ^ 64 := by
  have h1 : off < 2 ^ 64 := lt_of_lt_of_le hoff (by norm_num)
  have h2 : pad <<< 61 < 2 ^ 64 := by
    rw [Nat.shiftLeft_eq]
    calc pad * 2 ^ 61 ≤ 7 * 2 ^ 61 := Nat.mul_le_mul_right _ hpad
    _ < 2 ^ 64 := by norm_num
  have h3 : s.bit <<< 60 < 2 ^ 64 := by
    rw [Nat.shiftLeft_eq]
    calc s.bit * 2 ^ 60 ≤ 1 * 2 ^ 60 :=
          Nat.mul_le_mul_right _ (Nat.lt_succ_iff.mp s.bit_lt_two)
    _ < 2 ^ 64 := by norm_num
  exact Nat.bitwise_lt_two_pow (Nat.bitwise_lt_two_pow h1 h2) h3

theorem testBit_mkMarker (off pad : Nat) (s : State) (i : Nat) :
    (mkMarker off pad s).testBit i =
      (off.testBit i || (decide (61 ≤ i) && pad.testBit (i - 61))
        || (decide (60 ≤ i) && s.bit.testBit (i - 60))) := by
  simp [mkMarker, Nat.testBit_lor, Nat.testBit_shiftLeft]

theorem markerOffset_mkMarker (off pad : Nat) (s : State) (hoff : off < 2 ^ 60) :
    markerOffset (mkMarker off pad s) = off := by
  apply Nat.eq_of_testBit_eq
  intro i
  rw [markerOffset, Nat.testBit_mod_two_pow, testBit_mkMarker]
  by_cases hi : i < 60
  · have h61 : ¬ (61 ≤ i) := by omega
    have h60 : ¬ (60 ≤ i) := by omega
    simp [hi, h61, h60]
  · have hoffi : off.testBit i = false :=
      Nat.testBit_lt_two_pow (lt_of_lt_of_le hoff
        (Nat.pow_le_pow_right (by norm_num) (by omega)))
    by_cases h61 : 61 ≤ i
    · simp [hi, hoffi]
    · simp [hi, hoffi, h61]

theorem shiftRight_61_mkMarker (off pad : Nat) (s : State)
    (hoff : off < 2 ^ 60) (hpad : pad ≤ 7) :
    (mkMarker off pad s) >>> 61 = pad := by
  apply Nat.eq_of_testBit_eq
  intro i
  rw [Nat.testBit_shiftRight, testBit_mkMarker]
  have hoffi : off.testBit (61 + i) = false :=
    Nat.testBit_lt_two_pow (lt_of_lt_of_le hoff
      (Nat.pow_le_pow_right (by norm_num) (by omega)))
  have hsbit : s.bit.testBit (61 + i - 60) = false :=
    Nat.testBit_lt_two_pow (lt_of_lt_of_le s.bit_lt_two
      (by
        have : (2 : Nat) = 2 ^ 1 := by norm_num
        rw [this]
        exact Nat.pow_le_pow_right (by norm_num) (by omega)))
  have h61 : 61 ≤ 61 + i := by omega
  have h60 : 60 ≤ 61 + i := by omega
  have hsub : 61 + i - 61 = i := by omega
  simp [hoffi, hsbit, h61, h60, hsub]

theorem paddingLen_mkMarker (off pad : Nat) (s : State)
    (hoff : off < 2 ^ 60) (hpad : pad ≤ 7) :
    paddingLen (mkMarker off pad s) = pad := by
  rw [paddingLen, shiftRight_61_mkMarker off pad s hoff hpad]
  omega

theorem markerState_mkMarker (off pad : Nat) (s : State)
    (hoff : off < 2 ^ 60) (hpad : pad ≤ 7) :
    markerState (mkMarker off pad s) = s := by
  have hbit : (mkMarker off pad s).testBit 60 = s.bit.testBit 0 := by
    rw [testBit_mkMarker]
    have hoffi : off.testBit 60 = false :=
      Nat.testBit_lt_two_pow (lt_of_lt_of_le hoff (by norm_num))
    simp [hoffi]
  rw [Nat.testBit_to_div_mod] at hbit
  cases s with
  | Clean =>
      simp only [markerState]
      have hb : State.bit .Clean = 0 := rfl
      rw [hb] at hbit
      simp only [Nat.testBit_to_div_mod] at hbit
      simp at hbit
      simp [hbit]
  | Dirty =>
      simp only [markerState]
      have hb : State.bit .Dirty = 1 := rfl
      rw [hb] at hbit
      simp only [Nat.testBit_to_div_mod] at hbit
      simp at hbit
      simp [hbit]

theorem isPadding_mkMarker (off pad : Nat) (s : State)
    (hoff : off < 2 ^ 60) (hpad : pad ≤ 7) :
    isPadding (mkMarker off pad s) = true ↔ (s = .Dirty ∧ pad = 7) := by
  rw [isPadding, paddingLen_mkMarker off pad s hoff hpad,
      markerState_mkMarker off pad s hoff hpad]
  constructor
  · intro h
    simp only [Bool.and_eq_true, beq_iff_eq] at h
    exact ⟨h.2, h.1⟩
  · intro ⟨hs, hp⟩
    simp [hs, hp]

theorem fromBytes_toBytes (w : Nat) (hw : w < 2 ^ 64) :
    fromBytes (toBytes w) = w := by
  simp only [toBytes, fromBytes, List.foldr]
  omega

theorem toBytes_fromBytes (bs : List Nat) (hlen : bs.length = 8)
    (hb : ∀ x ∈ bs, x < 256) :
    toBytes (fromBytes bs) = bs := by
  match bs, hlen with
  | [b0, b1, b2, b3, b4, b5, b6, b7], _ =>
    have h0 : b0 < 256 := hb _ (by simp)
    have h1 : b1 < 256 := hb _ (by simp)
    have h2 : b2 < 256 := hb _ (by simp)
    have h3 : b3 < 256 := hb _ (by simp)
    have h4 : b4 < 256 := hb _ (by simp)
    have h5 : b5 < 256 := hb _ (by simp)
    have h6 : b6 < 256 := hb _ (by simp)
    have h7 : b7 < 256 := hb _ (by simp)
    simp only [toBytes, fromBytes, List.foldr, List.cons.injEq, and_true]
    norm_num
    omega

theorem fromBytes_lt (bs : List Nat) (hlen : bs.length = 8)
    (hb : ∀ x ∈ bs, x < 256) :
    fromBytes bs < 2 ^ 64 := by
  match bs, hlen with
  | [b0, b1, b2, b3, b4, b5, b6, b7], _ =>
    have h0 : b0 < 256 := hb _ (by simp)
    have h1 : b1 < 256 := hb _ (by simp)
    have h2 : b2 < 256 := hb _ (by simp)
    have h3 : b3 < 256 := hb _ (by simp)
    have h4 : b4 < 256 := hb _ (by simp)
    have h5 : b5 < 256 := hb _ (by simp)
    have h6 : b6 < 256 := hb _ (by simp)
    have h7 : b7 < 256 := hb _ (by simp)
    simp only [fromBytes, List.foldr]
    omega

/-! ### The forward iterator `Blobs` (src/lib.rs lines 272-318)

A `Blobs` iterator is a pair of a word slice `map` and the body index
`offset` of the slice's first word.  `Blobs::new` resynchronizes by dropping
head words until the head word's encoded offset equals the running offset. -/

/-- From `Blobs::new` (src/lib.rs): drop head words until the head encodes the
current offset (or the slice is exhausted); returns the final slice/offset. -/
def blobsNew : List Nat → Nat → List Nat × Nat
  | [], off => ([], off)
  | w :: rest, off =>
      if markerOffset w = off then (w :: rest, off)
      else blobsNew rest (off + 1)

/-- The scan inside `Blobs::next`: find the least `n` such that the word at
index `n` of `ws` encodes offset `t + n` (the word slice `ws` here starts at
body offset `t`). -/
def findEnd : List Nat → Nat → Option Nat
  | [], _ => none
  | w :: ws, t =>
      if markerOffset w = t then some 0
      else (findEnd ws (t + 1)).map (· + 1)

/-- From `Blobs::next` (src/lib.rs lines 294-317).  Starting from slice
`map` at offset `off`, scan for the first word after the head whose encoded
offset equals its body index (`findEnd`).  If the claimed `padding_len` fits
in the scanned payload, yield the blob (stripping the tail fill) and the
advanced iterator state; a marker claiming more padding than there is payload
is a padding-only word: drop the head, bump the offset and restart.  (In the
source the restart is the `continue` branch; the loop counter
`blob_len_words` is necessarily `0` there since `8 * blob_len_words <
padding_len ≤ 7` forces it, so restarting the scan from `0` is the same
computation.)  Returns `none` when the slice ends before an end marker. -/
def blobsNext : List Nat → Nat → Option ((Nat × List Nat) × List Nat × Nat)
  | [], _ => none
  | _ :: rest, off =>
      match findEnd rest (off + 1) with
      | none => none
      | some n =>
          if paddingLen (rest.getD n 0) ≤ 8 * n then
            some ((off, (bytesOfWords (rest.take n)).take
                          (8 * n - paddingLen (rest.getD n 0))),
                  rest.drop n, off + n + 1)
          else
            blobsNext rest (off + 1)

theorem findEnd_lt_length {ws : List Nat} {t n : Nat}
    (h : findEnd ws t = some n) : n < ws.length := by
  induction ws generalizing t n with
  | nil => simp [findEnd] at h
  | cons w ws ih =>
      rw [findEnd] at h
      by_cases hw : markerOffset w = t
      · rw [if_pos hw] at h
        simp only [Option.some.injEq] at h
        simp [← h]
      · rw [if_neg hw] at h
        cases hfe : findEnd ws (t + 1) with
        | none => rw [hfe] at h; simp at h
        | some m =>
            rw [hfe] at h
            simp at h
            have := ih hfe
            simp
            omega

theorem blobsNext_length {m : List Nat} {off : Nat}
    {it : Nat × List Nat} {m2 : List Nat} {off2 : Nat}
    (h : blobsNext m off = some (it, m2, off2)) : m2.length < m.length := by
  induction m generalizing off it m2 off2 with
  | nil => simp [blobsNext] at h
  | cons w rest ih =>
      rw [blobsNext] at h
      cases hfe : findEnd rest (off + 1) with
      | none => rw [hfe] at h; simp at h
      | some n =>
          rw [hfe] at h
          dsimp only at h
          by_cases hc : paddingLen (rest.getD n 0) ≤ 8 * n
          · rw [if_pos hc] at h
            simp only [Option.some.injEq, Prod.mk.injEq] at h
            obtain ⟨_, h2, _⟩ := h
            subst h2
            have hd : (rest.drop n).length ≤ rest.length := by simp
            simp
            omega
          · rw [if_neg hc] at h
            have := ih h
            simp
            omega

/-- Repeated `Blobs::next`, with explicit fuel (`blobsNext` strictly shrinks
the slice, so `map.length` steps always suffice; see `blobsListF_congr`). -/
def blobsListF : Nat → List Nat → Nat → List (Nat × List Nat)
  | 0, _, _ => []
  | fuel + 1, m, off =>
      match blobsNext m off with
      | none => []
      | some (it, m2, off2) => it :: blobsListF fuel m2 off2

/-- All items yielded by the iterator from state `(m, off)`. -/
def blobsList (m : List Nat) (off : Nat) : List (Nat × List Nat) :=
  blobsListF m.length m off

theorem blobsListF_congr :
    ∀ fuel1 fuel2 m off, m.length ≤ fuel1 → m.length ≤ fuel2 →
      blobsListF fuel1 m off = blobsListF fuel2 m off := by
  intro fuel1
  induction fuel1 using Nat.strong_induction_on with
  | _ fuel1 ih =>
    intro fuel2 m off h1 h2
    cases m with
    | nil => cases fuel1 <;> cases fuel2 <;> simp [blobsListF, blobsNext]
    | cons w rest =>
        cases fuel1 with
        | zero => simp at h1
        | succ f1 =>
          cases fuel2 with
          | zero => simp at h2
          | succ f2 =>
            rw [blobsListF, blobsListF]
            cases hnext : blobsNext (w :: rest) off with
            | none => rfl
            | some x =>
                obtain ⟨it, m2, off2⟩ := x
                have hlt := blobsNext_length hnext
                simp only [List.length_cons] at h1 h2 hlt
                show it :: blobsListF f1 m2 off2 = it :: blobsListF f2 m2 off2
                rw [ih f1 (by omega) f2 m2 off2 (by omega) (by omega)]

theorem blobsList_eq_blobsListF (fuel : Nat) (m : List Nat) (off : Nat)
    (h : m.length ≤ fuel) : blobsList m off = blobsListF fuel m off :=
  blobsListF_congr m.length fuel m off le_rfl h

/-- From `Breccia::blobs` (src/lib.rs line 247): iterate from offset 0 over the
whole body, resynchronizing first via `Blobs::new`. -/
def blobsIter (body : List Nat) : List (Nat × List Nat) :=
  blobsList (blobsNew body 0).1 (blobsNew body 0).2

/-! ### Header frame constants (src/header.rs lines 96-104) -/

/-- From `HeaderExt::PADDING_SIZE`:
`size_of::<Marker>() - ((MAGIC.len() + SERIALIZED_SIZE) & (size_of::<Marker>() - 1))`. -/
def paddingSize (m s : Nat) : Nat := 8 - ((m + s) &&& 7)

/-- From `HeaderExt::SIZE_WITH_PADDING`: `MAGIC.len() + SERIALIZED_SIZE + PADDING_SIZE`. -/
def sizeWithPadding (m s : Nat) : Nat := m + s + paddingSize m s

/-- The header frame written by `BrecciaMut::create_from_file`
(src/lib.rs lines 208-219): the magic bytes, the serialized header bytes,
then `PADDING_SIZE` zero bytes. -/
def headerFrame (magic hdr : List Nat) : List Nat :=
  magic ++ hdr ++ List.replicate (paddingSize magic.length hdr.length) 0

/-! ### Point lookup: `Breccia::get_blob` (src/lib.rs lines 139-165)

In the source, `end_offset` is bound once to `offset + 1` and never
reassigned, so the `while let Some(potential_mark) = self.map().get(end_offset.raw)`
loop examines the same word on every iteration.  Its first iteration
therefore decides the outcome: a padding word there is `todo!("blob is invalid")`,
a marker there encoding `offset + 1` returns `map[offset+1 .. offset+1] = []`
minus `padding_len` bytes (so `padding_len` must be `0`, otherwise
`todo!("handle incorrect padding length")`), and any other word makes the
loop repeat identically forever.  Running off the map is
`todo!("last blob not fully written")`. -/

inductive GetBlobOutcome where
  | ok (b : List Nat)
  | errOutOfRange
  | errUnaligned
  | panicInvalidBlob
  | panicIncorrectPadding
  | panicNotFullyWritten
  | loops
deriving DecidableEq, Repr

def getBlob (map : List Nat) (o : Nat) : GetBlobOutcome :=
  if o < map.length then
    if markerOffset (map.getD o 0) = o then
      if o + 1 < map.length then
        if isPadding (map.getD (o + 1) 0) then .panicInvalidBlob
        else if markerOffset (map.getD (o + 1) 0) = o + 1 then
          if paddingLen (map.getD (o + 1) 0) = 0 then .ok []
          else .panicIncorrectPadding
        else .loops
      else .panicNotFullyWritten
    else .errUnaligned
  else .errOutOfRange

/-! ### The writer (src/lib.rs lines 442-541) -/

/-- Chunking into 8-byte pieces with `0xfe` fill of the final short chunk, as in the
collision probe of `Batch::write_blob` (`as_chunks` plus the `0xfe`-filled
tail chunk); these are also exactly the payload bytes physically written
(the blob followed by the `0xfe` tail fill).  Fuel-structured: each step
consumes at least one byte, so `b.length` fuel suffices. -/
def chunksF : Nat → List Nat → List (List Nat)
  | 0, _ => []
  | _ + 1, [] => []
  | k + 1, y :: bs =>
      ((y :: bs).take 8 ++ List.replicate (8 - (y :: bs).length) 0xfe) ::
        chunksF k ((y :: bs).drop 8)

def chunks8 (b : List Nat) : List (List Nat) := chunksF b.length b

/-- The payload words of a blob: its chunks read as little-endian words
(`Marker::from(chunk)` in the probe; the written bytes themselves). -/
def payloadWords (b : List Nat) : List Nat := (chunks8 b).map fromBytes

/-- One round of the collision probe: does some chunk word, read as a marker,
encode exactly the body index it would land at?  `pos` is the body index of
the first payload word (`blob_offset + 1 + padding` in the source). -/
def collideAux : List Nat → Nat → Bool
  | [], _ => false
  | w :: ws, pos => (markerOffset w == pos) || collideAux ws (pos + 1)

/-- The `padding` search loop of `Batch::write_blob`: increment `padding`
until no chunk collides.  Each chunk blocks at most one `padding` value, so
some value at most `ws.length` is collision-free
(`exists_padding_not_collide`), and with fuel `ws.length + 1` this returns
exactly the first collision-free value that the source's unbounded loop
finds. -/
def padGo : Nat → (Nat → Bool) → Nat → Nat
  | 0, _, p => p
  | f + 1, bad, p => if bad p then padGo f bad (p + 1) else p

def computePadding (k : Nat) (ws : List Nat) : Nat :=
  padGo (ws.length + 1) (fun p => collideAux ws (k + 1 + p)) 0

/-- The result of one `Batch::write_blob` call that starts with
`blob_offset = k` (the body index of the word the file currently ends with):
`seg` is the words this call writes (pad markers then payload), `ret` the
returned offset `blob_offset.offset(padding)`, `endPad` the
`end_padding_len = blob.len().next_multiple_of(8) - blob.len()`, and
`endOff` the offset of the pending end marker, which is also the new
`blob_offset`. -/
structure WriteResult where
  seg : List Nat
  ret : Nat
  endOff : Nat
  endPad : Nat
deriving Repr

def writeOne (k : Nat) (blob : List Nat) : WriteResult :=
  { seg := (List.range (computePadding k (payloadWords blob))).map
             (fun i => mkPadding (k + 1 + i)) ++ payloadWords blob
    ret := k + computePadding k (payloadWords blob)
    endOff := k + computePadding k (payloadWords blob) + 1 +
                (blob.length + ((blob.length + 7) / 8 * 8 - blob.length)) / 8
    endPad := (blob.length + 7) / 8 * 8 - blob.length }

/-- The writer-side transaction `Batch` (src/lib.rs lines 444-449):
the running `blob_offset`, the buffered `pending_marker`, and the words
already written to the file by this batch. -/
structure Batch where
  blobOffset : Nat
  pending : Option Nat
  written : List Nat
deriving Repr, DecidableEq

/-- From `Batch::new` (src/lib.rs lines 452-473) on a given committed body:
`blob_offset` is the body index of the file's last word; a `Dirty`
terminator is `todo!("handle dirty file")`, modelled as `none`. -/
def startBatch (body : List Nat) : Option Batch :=
  match body.getLast? with
  | none => none
  | some m =>
      if markerState m = .Dirty then none
      else some { blobOffset := body.length - 1, pending := none, written := [] }

/-- From `Batch::write_blob` (src/lib.rs lines 478-526): flush the previous
pending end marker (still Dirty), write pad markers, payload and tail fill,
and buffer the new end marker (Dirty) as pending.  Returns the new batch
state and the returned blob offset. -/
def batchWriteBlob (b : Batch) (blob : List Nat) : Batch × Nat :=
  ({ blobOffset := (writeOne b.blobOffset blob).endOff,
     pending := some (mkMarker (writeOne b.blobOffset blob).endOff
                               (writeOne b.blobOffset blob).endPad .Dirty),
     written := b.written ++
       (match b.pending with | some m => [m] | none => []) ++
       (writeOne b.blobOffset blob).seg },
   (writeOne b.blobOffset blob).ret)

inductive CommitResult where
  | ok (words : List Nat)
  | panicked
deriving DecidableEq, Repr

/-- From `Batch::commit` (src/lib.rs lines 529-541): flip the pending end marker
to Clean with `set_state` and write it; with no pending marker it is
`panic!("no blobs written")`. -/
def commit (b : Batch) : CommitResult :=
  match b.pending with
  | some m => .ok (b.written ++ [setState m .Clean])
  | none => .panicked

def runBatch : Batch → List (List Nat) → Batch
  | b, [] => b
  | b, blob :: rest => runBatch (batchWriteBlob b blob).1 rest

/-- The words appended after body index `k` by writing `blobs` in order,
where `sts` lists the state bit each blob's end marker carries in the final
file: `Dirty` for a batch's intermediate end markers (they are flushed by the
following `write_blob` without being cleaned), `Clean` for the marker
rewritten by `commit` and for every single `write_blob`'s own commit. -/
def buildBody (k : Nat) : List (List Nat) → List State → List Nat
  | [], _ => []
  | blob :: rest, sts =>
      (writeOne k blob).seg ++
        mkMarker (writeOne k blob).endOff (writeOne k blob).endPad (sts.headD .Clean) ::
          buildBody (writeOne k blob).endOff rest sts.tail

/-- The offsets returned by the successive `write_blob` calls. -/
def offsetsFrom (k : Nat) : List (List Nat) → List Nat
  | [] => []
  | blob :: rest => (writeOne k blob).ret :: offsetsFrom (writeOne k blob).endOff rest

/-- End-marker states inside one committed batch: all intermediate markers
stay Dirty, the final one is committed Clean. -/
def stampStates : List (List Nat) → List State
  | [] => []
  | [_] => [.Clean]
  | _ :: b :: rest => .Dirty :: stampStates (b :: rest)

/-- The body `BrecciaMut::create_from_file` writes (src/lib.rs line 219):
just the initial terminator `Marker::new(0, 0, Clean)`. -/
def createBody : List Nat := [mkMarker 0 0 .Clean]

/-- The committed body after writing `blobs` in one committed batch to a
freshly created store. -/
def batchBody (blobs : List (List Nat)) : List Nat :=
  mkMarker 0 0 .Clean :: buildBody 0 blobs (stampStates blobs)

/-- The committed body after writing `blobs` by successive single
`BrecciaMut::write_blob` calls (each a one-blob batch, committed at once)
to a freshly created store. -/
def singlesBody (blobs : List (List Nat)) : List Nat :=
  mkMarker 0 0 .Clean :: buildBody 0 blobs (List.replicate blobs.length .Clean)

/-! ### Chunking and payload-byte lemmas -/

theorem chunksF_length : ∀ fuel (b : List Nat), b.length ≤ fuel →
    (chunksF fuel b).length = (b.length + 7) / 8 := by
  intro fuel
  induction fuel with
  | zero =>
      intro b hb
      match b, hb with
      | [], _ => simp [chunksF]
  | succ fuel ih =>
      intro b hb
      cases b with
      | nil => simp [chunksF]
      | cons x bs =>
          rw [chunksF]
          have hd : (List.drop 8 (x :: bs)).length = (x :: bs).length - 8 := by
            simp
          have hlen : (List.drop 8 (x :: bs)).length ≤ fuel := by
            simp at hb ⊢
            omega
          rw [List.length_cons, ih _ hlen, hd]
          simp only [List.length_cons]
          omega

theorem chunksF_mem : ∀ fuel (b c : List Nat), c ∈ chunksF fuel b →
    c.length = 8 ∧ ∀ x ∈ c, x ∈ b ∨ x = 0xfe := by
  intro fuel
  induction fuel with
  | zero => intro b c hc; simp [chunksF] at hc
  | succ fuel ih =>
      intro b c hc
      cases b with
      | nil => simp [chunksF] at hc
      | cons y bs =>
          rw [chunksF] at hc
          rcases List.mem_cons.mp hc with h | h
          · subst h
            constructor
            · simp only [List.length_append, List.length_take, List.length_replicate,
                List.length_cons]
              omega
            · intro x hx
              rcases List.mem_append.mp hx with h2 | h2
              · exact Or.inl (List.mem_of_mem_take h2)
              · exact Or.inr (List.eq_of_mem_replicate h2)
          · obtain ⟨hl, hm⟩ := ih _ _ h
            refine ⟨hl, fun x hx => ?_⟩
            rcases hm x hx with h2 | h2
            · exact Or.inl (List.mem_of_mem_drop h2)
            · exact Or.inr h2

theorem bytesOfWords_payload : ∀ fuel (b : List Nat), b.length ≤ fuel →
    (∀ x ∈ b, x < 256) →
    bytesOfWords ((chunksF fuel b).map fromBytes) =
      b ++ List.replicate ((b.length + 7) / 8 * 8 - b.length) 0xfe := by
  intro fuel
  induction fuel with
  | zero =>
      intro b hb _
      match b, hb with
      | [], _ => simp [chunksF, bytesOfWords]
  | succ fuel ih =>
      intro b hb hbytes
      cases b with
      | nil => simp [chunksF, bytesOfWords]
      | cons y bs =>
          rw [chunksF]
          simp only [List.map_cons, bytesOfWords, List.foldr_cons]
          have hchunk : toBytes (fromBytes
              (List.take 8 (y :: bs) ++ List.replicate (8 - (y :: bs).length) 0xfe)) =
              List.take 8 (y :: bs) ++ List.replicate (8 - (y :: bs).length) 0xfe := by
            apply toBytes_fromBytes
            · simp only [List.length_append, List.length_take, List.length_replicate,
                List.length_cons]
              omega
            · intro x hx
              rcases List.mem_append.mp hx with h2 | h2
              · exact hbytes x (List.mem_of_mem_take h2)
              · rw [List.eq_of_mem_replicate h2]; norm_num
          show toBytes (fromBytes _) ++
              (List.foldr (fun w acc => toBytes w ++ acc) []
                ((chunksF fuel (List.drop 8 (y :: bs))).map fromBytes)) = _
          rw [hchunk]
          have hfold : (List.foldr (fun w acc => toBytes w ++ acc) []
                ((chunksF fuel (List.drop 8 (y :: bs))).map fromBytes)) =
              bytesOfWords ((chunksF fuel (List.drop 8 (y :: bs))).map fromBytes) := rfl
          rw [hfold, ih (List.drop 8 (y :: bs)) (by simp at hb ⊢; omega)
                (fun x hx => hbytes x (List.mem_of_mem_drop hx))]
          rcases le_or_lt (y :: bs).length 8 with hle | hgt
          · have hdrop : List.drop 8 (y :: bs) = [] := by
              apply List.drop_eq_nil_of_le
              omega
            have htake : List.take 8 (y :: bs) = y :: bs :=
              List.take_of_length_le hle
            rw [hdrop, htake]
            simp only [List.length_cons] at hle ⊢
            simp only [List.length_nil, List.append_nil]
            have h1 : (bs.length + 1 + 7) / 8 * 8 - (bs.length + 1) = 8 - (bs.length + 1) := by
              omega
            rw [h1]
            simp
          · have hrep0 : List.replicate (8 - (y :: bs).length) (0xfe : Nat) = [] := by
              have h0 : 8 - (y :: bs).length = 0 := by
                simp only [List.length_cons]
                simp only [List.length_cons] at hgt
                omega
              rw [h0]
              rfl
            rw [hrep0, List.append_nil]
            rw [← List.append_assoc, List.take_append_drop]
            congr 2
            simp only [List.length_drop, List.length_cons]
            simp only [List.length_cons] at hgt
            omega

theorem payloadWords_length (b : List Nat) :
    (payloadWords b).length = (b.length + 7) / 8 := by
  rw [payloadWords, chunks8, List.length_map, chunksF_length b.length b le_rfl]

theorem bytesOfWords_payloadWords (b : List Nat) (hbytes : ∀ x ∈ b, x < 256) :
    bytesOfWords (payloadWords b) =
      b ++ List.replicate ((b.length + 7) / 8 * 8 - b.length) 0xfe :=
  bytesOfWords_payload b.length b le_rfl hbytes

/-! ### The collision probe terminates collision-free -/

theorem collideAux_eq_false_iff : ∀ (ws : List Nat) (pos : Nat),
    collideAux ws pos = false ↔
      ∀ i < ws.length, markerOffset (ws.getD i 0) ≠ pos + i := by
  intro ws
  induction ws with
  | nil => intro pos; simp [collideAux]
  | cons w ws ih =>
      intro pos
      rw [collideAux, Bool.or_eq_false_iff, ih (pos + 1)]
      constructor
      · intro ⟨h1, h2⟩ i hi
        cases i with
        | zero =>
            simp only [List.getD_cons_zero, Nat.add_zero]
            simpa using h1
        | succ j =>
            simp only [List.getD_cons_succ]
            have := h2 j (by simpa using hi)
            omega
      · intro h
        constructor
        · have := h 0 (by simp)
          simp only [List.getD_cons_zero, Nat.add_zero] at this
          simpa using this
        · intro j hj
          have := h (j + 1) (by simpa using hj)
          simp only [List.getD_cons_succ] at this
          omega

theorem exists_padding_not_collide (k : Nat) (ws : List Nat) :
    ∃ p ≤ ws.length, collideAux ws (k + 1 + p) = false := by
  by_contra hcon
  push_neg at hcon
  have hall : ∀ p, p ≤ ws.length → ∃ i, i < ws.length ∧
      markerOffset (ws.getD i 0) = k + 1 + p + i := by
    intro p hp
    by_contra hno
    push_neg at hno
    exact hcon p hp ((collideAux_eq_false_iff ws (k + 1 + p)).mpr
      (fun i hi => hno i hi))
  classical
  set f : Nat → Nat :=
    fun p => if hp : p ≤ ws.length then (hall p hp).choose else 0 with hf
  have hmaps : ∀ p ∈ Finset.range (ws.length + 1), f p ∈ Finset.range ws.length := by
    intro p hp
    rw [Finset.mem_range] at hp
    have hple : p ≤ ws.length := by omega
    rw [Finset.mem_range, hf]
    simp only [dif_pos hple]
    exact (hall p hple).choose_spec.1
  have hcard : (Finset.range ws.length).card < (Finset.range (ws.length + 1)).card := by
    simp
  obtain ⟨p, hp, q, hq, hpq, hfeq⟩ :=
    Finset.exists_ne_map_eq_of_card_lt_of_maps_to hcard hmaps
  rw [Finset.mem_range] at hp hq
  have hple : p ≤ ws.length := by omega
  have hqle : q ≤ ws.length := by omega
  have hfp := (hall p hple).choose_spec.2
  have hfq := (hall q hqle).choose_spec.2
  rw [hf] at hfeq
  simp only [dif_pos hple, dif_pos hqle] at hfeq
  rw [hfeq] at hfp
  have heq2 : k + 1 + p + (hall q hqle).choose = k + 1 + q + (hall q hqle).choose :=
    hfp.symm.trans hfq
  exact hpq (by omega)

theorem padGo_spec : ∀ fuel (bad : Nat → Bool) (p : Nat),
    (∃ j < fuel, bad (p + j) = false) → bad (padGo fuel bad p) = false := by
  intro fuel
  induction fuel with
  | zero => intro bad p h; obtain ⟨j, hj, _⟩ := h; omega
  | succ fuel ih =>
      intro bad p h
      rw [padGo]
      cases hbp : bad p with
      | false => simpa using hbp
      | true =>
          simp only [if_pos rfl]
          apply ih
          obtain ⟨j, hj, hbad⟩ := h
          cases j with
          | zero => rw [Nat.add_zero] at hbad; rw [hbp] at hbad; cases hbad
          | succ j => exact ⟨j, by omega, by rw [← hbad]; ring_nf⟩

theorem computePadding_not_collide (k : Nat) (ws : List Nat) :
    collideAux ws (k + 1 + computePadding k ws) = false := by
  obtain ⟨p, hp, hc⟩ := exists_padding_not_collide k ws
  have h := padGo_spec (ws.length + 1) (fun q => collideAux ws (k + 1 + q)) 0
    ⟨p, by omega, by simpa using hc⟩
  simpa [computePadding] using h

/-! ### One written record is yielded as one iterator item -/

theorem getD_append_length (l1 : List Nat) (x : Nat) (l2 : List Nat) :
    (l1 ++ x :: l2).getD l1.length 0 = x := by
  induction l1 with
  | nil => rfl
  | cons w l1 ih => simpa using ih

theorem findEnd_no_match_append (ws : List Nat) (x : Nat) (rest : List Nat) :
    ∀ t, (∀ i < ws.length, markerOffset (ws.getD i 0) ≠ t + i) →
    markerOffset x = t + ws.length →
    findEnd (ws ++ x :: rest) t = some ws.length := by
  induction ws with
  | nil =>
      intro t _ hx
      simp only [List.nil_append, findEnd, List.length_nil]
      rw [if_pos (by simpa using hx)]
  | cons w ws ih =>
      intro t hpre hx
      rw [List.cons_append, findEnd]
      have h0 : markerOffset w ≠ t := by
        have := hpre 0 (by simp)
        simpa using this
      rw [if_neg h0]
      have hpre2 : ∀ i < ws.length, markerOffset (ws.getD i 0) ≠ (t + 1) + i := by
        intro i hi
        have := hpre (i + 1) (by simpa using hi)
        simp only [List.getD_cons_succ] at this
        omega
      have hx2 : markerOffset x = (t + 1) + ws.length := by
        simp only [List.length_cons] at hx
        omega
      rw [ih (t + 1) hpre2 hx2]
      simp

/-- The core record lemma: from a state whose head sits at body index `k`
(the record's start marker — its value is never inspected), a record
consisting of `p` pad markers, payload words `ws` and an end marker `M`
is consumed by one `Blobs::next` call, yielding offset `k + p` and the
payload bytes minus the end marker's claimed tail fill. -/
theorem blobsNext_segment (ws : List Nat) (M : Nat) (tail : List Nat) :
    ∀ p k w, collideAux ws (k + 1 + p) = false →
    markerOffset M = k + p + 1 + ws.length →
    paddingLen M ≤ 8 * ws.length →
    k + p + 1 ≤ 2 ^ 60 →
    blobsNext (w :: ((List.range' (k + 1) p).map mkPadding ++ (ws ++ M :: tail))) k
      = some ((k + p, (bytesOfWords ws).take (8 * ws.length - paddingLen M)),
              M :: tail, k + p + 1 + ws.length) := by
  intro p
  induction p with
  | zero =>
      intro k w hcol hM hpad hbound
      simp only [List.range', List.map_nil, List.nil_append]
      rw [blobsNext]
      have hpre : ∀ i < ws.length, markerOffset (ws.getD i 0) ≠ (k + 1) + i := by
        have h := (collideAux_eq_false_iff ws (k + 1 + 0)).mp hcol
        intro i hi
        have := h i hi
        omega
      have hx : markerOffset M = (k + 1) + ws.length := by omega
      rw [findEnd_no_match_append ws M tail (k + 1) hpre hx]
      dsimp only
      rw [getD_append_length]
      rw [if_pos hpad]
      rw [List.take_left, List.drop_left]
      have e1 : k + 0 = k := by omega
      have e2 : k + ws.length + 1 = k + 0 + 1 + ws.length := by omega
      rw [e1, e2]
  | succ p ih =>
      intro k w hcol hM hpad hbound
      have hrange : List.range' (k + 1) (p + 1) = (k + 1) :: List.range' (k + 2) p :=
        List.range'_succ (k + 1) p 1
      rw [hrange]
      simp only [List.map_cons, List.cons_append]
      rw [blobsNext]
      have hk1 : k + 1 < 2 ^ 60 := by omega
      have hoffpad : markerOffset (mkPadding (k + 1)) = k + 1 :=
        markerOffset_mkMarker (k + 1) 7 .Dirty hk1
      have hfe : findEnd (mkPadding (k + 1) :: ((List.range' (k + 2) p).map mkPadding
          ++ (ws ++ M :: tail))) (k + 1) = some 0 := by
        rw [findEnd, if_pos hoffpad]
      rw [hfe]
      dsimp only
      have hpl : paddingLen ((mkPadding (k + 1) :: ((List.range' (k + 2) p).map mkPadding
          ++ (ws ++ M :: tail))).getD 0 0) = 7 := by
        simp only [List.getD_cons_zero]
        exact paddingLen_mkMarker (k + 1) 7 .Dirty hk1 (by norm_num)
      rw [hpl]
      rw [if_neg (by omega)]
      have hcol2 : collideAux ws ((k + 1) + 1 + p) = false := by
        have e : (k + 1) + 1 + p = k + 1 + (p + 1) := by omega
        rw [e]
        exact hcol
      have hM2 : markerOffset M = (k + 1) + p + 1 + ws.length := by omega
      have hbound2 : (k + 1) + p + 1 ≤ 2 ^ 60 := by omega
      have hrec := ih (k + 1) (mkPadding (k + 1)) hcol2 hM2 hpad hbound2
      have e3 : (k + 2) = (k + 1) + 1 := by omega
      rw [e3]
      rw [hrec]
      have e4 : (k + 1) + p = k + (p + 1) := by omega
      rw [e4]

/-! ### Iterating a committed body yields exactly the written blobs -/

theorem range_map_mkPadding (k p : Nat) :
    (List.range p).map (fun i => mkPadding (k + 1 + i)) =
      (List.range' (k + 1) p).map mkPadding := by
  induction p with
  | zero => simp
  | succ p ih =>
      rw [List.range_succ, List.range'_concat]
      simp only [List.map_append, List.map_cons, List.map_nil, ih, Nat.one_mul]

theorem writeOne_seg (k : Nat) (blob : List Nat) :
    (writeOne k blob).seg =
      (List.range' (k + 1) (computePadding k (payloadWords blob))).map mkPadding ++
        payloadWords blob := by
  rw [writeOne]
  rw [range_map_mkPadding]

theorem writeOne_endPad_le (blob : List Nat) : (writeOne k blob).endPad ≤ 7 := by
  rw [writeOne]
  dsimp only
  omega

theorem writeOne_endPad_le_words (blob : List Nat) :
    (writeOne k blob).endPad ≤ 8 * (payloadWords blob).length := by
  rw [writeOne, payloadWords_length]
  dsimp only
  omega

theorem writeOne_endOff (k : Nat) (blob : List Nat) :
    (writeOne k blob).endOff =
      k + computePadding k (payloadWords blob) + 1 + (payloadWords blob).length := by
  rw [writeOne, payloadWords_length]
  dsimp only
  congr 1
  omega

theorem writeOne_seg_length (k : Nat) (blob : List Nat) :
    (writeOne k blob).seg.length =
      computePadding k (payloadWords blob) + (payloadWords blob).length := by
  rw [writeOne]
  simp

theorem writeOne_blob_take (blob : List Nat) (hbytes : ∀ x ∈ blob, x < 256) :
    (bytesOfWords (payloadWords blob)).take
        (8 * (payloadWords blob).length - (writeOne k blob).endPad) = blob := by
  rw [bytesOfWords_payloadWords blob hbytes, payloadWords_length, writeOne]
  dsimp only
  have e : 8 * ((blob.length + 7) / 8) -
      ((blob.length + 7) / 8 * 8 - blob.length) = blob.length := by omega
  rw [e]
  exact List.take_left blob _

theorem buildBody_length (k : Nat) (blob : List Nat) (rest : List (List Nat))
    (sts : List State) :
    (buildBody k (blob :: rest) sts).length =
      (writeOne k blob).seg.length + 1 +
        (buildBody (writeOne k blob).endOff rest sts.tail).length := by
  rw [buildBody]
  simp
  omega

/-- Forward iteration over a committed body: starting just before the record
chain (any head word `w` at index `k`; it is never inspected), the iterator
yields exactly the written blobs at their returned offsets. -/
theorem blobsListF_buildBody :
    ∀ (blobs : List (List Nat)) (sts : List State) (k w fuel : Nat),
    (∀ b ∈ blobs, ∀ x ∈ b, x < 256) →
    k + 1 + (buildBody k blobs sts).length ≤ 2 ^ 60 →
    (buildBody k blobs sts).length + 1 ≤ fuel →
    blobsListF fuel (w :: buildBody k blobs sts) k = (offsetsFrom k blobs).zip blobs := by
  intro blobs
  induction blobs with
  | nil =>
      intro sts k w fuel _ _ hfuel
      match fuel, hfuel with
      | fuel + 1, _ =>
        simp [buildBody, blobsListF, blobsNext, findEnd, offsetsFrom]
  | cons blob rest ih =>
      intro sts k w fuel hbytes hbound hfuel
      rw [buildBody] at hbound hfuel ⊢
      rw [writeOne_seg, List.append_assoc]
      match fuel, (by
          have := writeOne_seg_length k blob
          simp only [List.length_append, List.length_cons] at hfuel
          omega : 1 ≤ fuel) with
      | fuel + 1, _ =>
        rw [blobsListF]
        have hsegl := writeOne_seg_length k blob
        have hlen : (buildBody k (blob :: rest) sts).length =
            (writeOne k blob).seg.length + 1 +
              (buildBody (writeOne k blob).endOff rest sts.tail).length :=
          buildBody_length k blob rest sts
        rw [buildBody] at hlen
        have hcol := computePadding_not_collide k (payloadWords blob)
        have hoffM : markerOffset (mkMarker (writeOne k blob).endOff
            (writeOne k blob).endPad (sts.headD .Clean)) = (writeOne k blob).endOff := by
          apply markerOffset_mkMarker
          rw [writeOne_endOff]
          simp only [List.length_append, List.length_cons] at hbound
          rw [hsegl] at hbound
          omega
        have hplM : paddingLen (mkMarker (writeOne k blob).endOff
            (writeOne k blob).endPad (sts.headD .Clean)) = (writeOne k blob).endPad := by
          apply paddingLen_mkMarker
          · rw [writeOne_endOff]
            simp only [List.length_append, List.length_cons] at hbound
            rw [hsegl] at hbound
            omega
          · exact writeOne_endPad_le blob
        have hseg := blobsNext_segment (payloadWords blob)
          (mkMarker (writeOne k blob).endOff (writeOne k blob).endPad (sts.headD .Clean))
          (buildBody (writeOne k blob).endOff rest sts.tail)
          (computePadding k (payloadWords blob)) k w
          hcol
          (by rw [hoffM, writeOne_endOff])
          (by rw [hplM]; exact writeOne_endPad_le_words blob)
          (by
            simp only [List.length_append, List.length_cons] at hbound
            rw [hsegl] at hbound
            omega)
        rw [hseg]
        have hblob : (bytesOfWords (payloadWords blob)).take
            (8 * (payloadWords blob).length - paddingLen
              (mkMarker (writeOne k blob).endOff (writeOne k blob).endPad
                (sts.headD .Clean))) = blob := by
          rw [hplM]
          exact writeOne_blob_take blob (fun x hx => hbytes blob (by simp) x hx)
        rw [hblob]
        have hret : k + computePadding k (payloadWords blob) = (writeOne k blob).ret := by
          rw [writeOne]
        have hoff2 : k + computePadding k (payloadWords blob) + 1 +
            (payloadWords blob).length = (writeOne k blob).endOff := by
          rw [writeOne_endOff]
        rw [hoff2, hret]
        have hrec := ih sts.tail (writeOne k blob).endOff
          (mkMarker (writeOne k blob).endOff (writeOne k blob).endPad (sts.headD .Clean))
          fuel
          (fun b hb => hbytes b (by simp [hb]))
          (by
            simp only [List.length_append, List.length_cons] at hbound
            rw [hsegl] at hbound
            have he := writeOne_endOff k blob
            omega)
          (by
            simp only [List.length_append, List.length_cons] at hfuel
            rw [hsegl] at hfuel
            omega)
        dsimp only
        rw [hrec, offsetsFrom]
        rfl

theorem offsetsFrom_chain : ∀ (blobs : List (List Nat)) (k : Nat),
    List.Chain' (· < ·) (offsetsFrom k blobs) ∧
      ∀ o ∈ offsetsFrom k blobs, k ≤ o := by
  intro blobs
  induction blobs with
  | nil => intro k; simp [offsetsFrom]
  | cons blob rest ih =>
      intro k
      rw [offsetsFrom]
      obtain ⟨hchain, hlb⟩ := ih (writeOne k blob).endOff
      constructor
      · rw [List.chain'_cons']
        refine ⟨?_, hchain⟩
        intro y hy
        have hmem : y ∈ offsetsFrom (writeOne k blob).endOff rest :=
          List.mem_of_mem_head? hy
        have h1 := hlb y hmem
        have h2 : (writeOne k blob).ret < (writeOne k blob).endOff := by
          rw [writeOne_endOff, writeOne]
          dsimp only
          omega
        omega
      · intro o ho
        rcases List.mem_cons.mp ho with h | h
        · subst h
          rw [writeOne]
          dsimp only
          omega
        · have h1 := hlb o h
          have h2 : k ≤ (writeOne k blob).endOff := by
            rw [writeOne_endOff]
            omega
          omega

theorem buildBody_length_states : ∀ (blobs : List (List Nat)) (k : Nat)
    (sts1 sts2 : List State),
    (buildBody k blobs sts1).length = (buildBody k blobs sts2).length := by
  intro blobs
  induction blobs with
  | nil => intro k sts1 sts2; rfl
  | cons blob rest ih =>
      intro k sts1 sts2
      rw [buildBody, buildBody]
      simp only [List.length_append, List.length_cons]
      rw [ih (writeOne k blob).endOff sts1.tail sts2.tail]

theorem markerOffset_zero : markerOffset (mkMarker 0 0 .Clean) = 0 :=
  markerOffset_mkMarker 0 0 .Clean (by norm_num)

theorem blobsIter_buildBody (blobs : List (List Nat)) (sts : List State)
    (hbytes : ∀ b ∈ blobs, ∀ x ∈ b, x < 256)
    (hbound : 1 + (buildBody 0 blobs sts).length ≤ 2 ^ 60) :
    blobsIter (mkMarker 0 0 .Clean :: buildBody 0 blobs sts) =
      (offsetsFrom 0 blobs).zip blobs := by
  rw [blobsIter, blobsNew, if_pos markerOffset_zero]
  rw [blobsList]
  exact blobsListF_buildBody blobs sts 0 (mkMarker 0 0 .Clean)
    (mkMarker 0 0 .Clean :: buildBody 0 blobs sts).length hbytes
    (by omega) (by simp)

/-- C1: for every sequence of blobs written in order to a freshly created
store — in one committed batch (`batchBody`) or by successive single
`write_blob` calls (`singlesBody`) — the forward iterator `blobs()` yields
exactly the pairs `(o_i, b_i)` of returned offsets and written blobs, in
writing order, with strictly increasing offsets.  `blobsIter` is the
iterator's complete (finite) yield, after which `next` returns `None`
forever (the iterator is fused).  The hypotheses state that the blobs are
byte strings and that the body fits the format's `2 ^ 60`-word offset cap. -/
theorem C1_forward_iterator_roundtrip (blobs : List (List Nat))
    (hbytes : ∀ b ∈ blobs, ∀ x ∈ b, x < 256)
    (hbound : (batchBody blobs).length ≤ 2 ^ 60) :
    blobsIter (batchBody blobs) = (offsetsFrom 0 blobs).zip blobs ∧
    blobsIter (singlesBody blobs) = (offsetsFrom 0 blobs).zip blobs ∧
    List.Chain' (· < ·) (offsetsFrom 0 blobs) := by
  have hlen : (batchBody blobs).length = 1 + (buildBody 0 blobs (stampStates blobs)).length := by
    rw [batchBody]; simp; omega
  refine ⟨?_, ?_, (offsetsFrom_chain blobs 0).1⟩
  · exact blobsIter_buildBody blobs (stampStates blobs) hbytes (by omega)
  · rw [singlesBody]
    apply blobsIter_buildBody blobs _ hbytes
    rw [buildBody_length_states blobs 0 (List.replicate blobs.length .Clean)
      (stampStates blobs)]
    omega

/-- Witness for C1 at the store of the source's `write_blob` test:
blobs `[]`, `[]`, `[42]` land at offsets 0, 1, 2. -/
theorem C1_forward_iterator_roundtrip_witness :
    blobsIter (batchBody [[], [], [42]]) =
        (offsetsFrom 0 [[], [], [42]]).zip [[], [], [42]] ∧
      blobsIter (singlesBody [[], [], [42]]) =
        (offsetsFrom 0 [[], [], [42]]).zip [[], [], [42]] ∧
      List.Chain' (· < ·) (offsetsFrom 0 [[], [], [42]]) :=
  C1_forward_iterator_roundtrip [[], [], [42]] (by decide) (by decide)

/-- C8: for offsets below `2 ^ 60` and padding lengths up to 7, the
marker constructor round-trips through all three accessors and through the
8-byte little-endian serialization, and `is_padding` holds exactly for
Dirty state with padding length 7. -/
theorem C8_marker_roundtrip (o p : Nat) (s : State) (ho : o < 2 ^ 60) (hp : p ≤ 7) :
    markerOffset (mkMarker o p s) = o ∧
    paddingLen (mkMarker o p s) = p ∧
    markerState (mkMarker o p s) = s ∧
    fromBytes (toBytes (mkMarker o p s)) = mkMarker o p s ∧
    (isPadding (mkMarker o p s) = true ↔ (s = .Dirty ∧ p = 7)) :=
  ⟨markerOffset_mkMarker o p s ho, paddingLen_mkMarker o p s ho hp,
   markerState_mkMarker o p s ho hp,
   fromBytes_toBytes _ (mkMarker_lt_two_pow o p s ho hp),
   isPadding_mkMarker o p s ho hp⟩

/-- Witness for C8 at the source's own marker test values
(`Marker::new(Offset::new(42), 0b101, Clean)`). -/
theorem C8_marker_roundtrip_witness :
    markerOffset (mkMarker 42 5 .Clean) = 42 ∧
    paddingLen (mkMarker 42 5 .Clean) = 5 ∧
    markerState (mkMarker 42 5 .Clean) = .Clean ∧
    fromBytes (toBytes (mkMarker 42 5 .Clean)) = mkMarker 42 5 .Clean ∧
    (isPadding (mkMarker 42 5 .Clean) = true ↔ (.Clean = State.Dirty ∧ 5 = 7)) :=
  C8_marker_roundtrip 42 5 .Clean (by norm_num) (by norm_num)

/-- C5 counterexample: for the null header (`MAGIC = b""`,
`SERIALIZED_SIZE = 0` — the source's own `impl Header for ()`), the computed
zero padding is 8 bytes, which is not in `0..7`, and the frame size is
`M + S + 8 = 8`, not `M + S = 0` rounded up to a multiple of 8 (which is 0). -/
theorem C5_header_frame_counterexample :
    paddingSize 0 0 = 8 ∧ ¬ paddingSize 0 0 ≤ 7 ∧
      sizeWithPadding 0 0 = 8 ∧ (0 + 0 + 7) / 8 * 8 = 0 := by decide

/-- C5 amended: the header frame written by `create` is the magic, the
`S` header bytes and `P` zero bytes with `P` in `1..8` (never 0: an already
aligned `M + S` still gets 8 padding bytes); the frame size `M + S + P` is a
multiple of 8, equal to `M + S` rounded up when `M + S` is not 8-aligned and
to `M + S + 8` when it is. -/
theorem C5_header_frame_amended (m s : Nat) (magic hdr : List Nat) :
    1 ≤ paddingSize m s ∧ paddingSize m s ≤ 8 ∧
    sizeWithPadding m s % 8 = 0 ∧
    ((m + s) % 8 ≠ 0 → sizeWithPadding m s = (m + s + 7) / 8 * 8) ∧
    ((m + s) % 8 = 0 → sizeWithPadding m s = m + s + 8) ∧
    headerFrame magic hdr = magic ++ hdr ++
      List.replicate (paddingSize magic.length hdr.length) 0 ∧
    (headerFrame magic hdr).length = sizeWithPadding magic.length hdr.length := by
  have hand : (m + s) &&& 7 = (m + s) % 8 :=
    Nat.and_pow_two_sub_one_eq_mod (m + s) 3
  have hand2 : (magic.length + hdr.length) &&& 7 = (magic.length + hdr.length) % 8 :=
    Nat.and_pow_two_sub_one_eq_mod (magic.length + hdr.length) 3
  refine ⟨?_, ?_, ?_, ?_, ?_, rfl, ?_⟩
  · rw [paddingSize, hand]; omega
  · rw [paddingSize, hand]; omega
  · rw [sizeWithPadding, paddingSize, hand]; omega
  · intro h; rw [sizeWithPadding, paddingSize, hand]; omega
  · intro h; rw [sizeWithPadding, paddingSize, hand]; omega
  · rw [headerFrame, sizeWithPadding, paddingSize, hand2]
    simp only [List.length_append, List.length_replicate, paddingSize, hand2]

/-- Witness for the amended C5 at the source's `TestHeader`
(`MAGIC = b"\x00"`, `SERIALIZED_SIZE = 1`): 6 padding bytes, 8-byte frame. -/
theorem C5_header_frame_amended_witness :
    1 ≤ paddingSize 1 1 ∧ paddingSize 1 1 ≤ 8 ∧
    sizeWithPadding 1 1 % 8 = 0 ∧
    ((1 + 1) % 8 ≠ 0 → sizeWithPadding 1 1 = (1 + 1 + 7) / 8 * 8) ∧
    ((1 + 1) % 8 = 0 → sizeWithPadding 1 1 = 1 + 1 + 8) ∧
    headerFrame [0] [0x42] = [0] ++ [0x42] ++
      List.replicate (paddingSize ([0] : List Nat).length ([0x42] : List Nat).length) 0 ∧
    (headerFrame [0] [0x42]).length =
      sizeWithPadding ([0] : List Nat).length ([0x42] : List Nat).length :=
  C5_header_frame_amended 1 1 [0] [0x42]

/-- C2 (code bug, src/lib.rs lines 144-160): on the store of the source's
own `write_blob` test the forward iterator yields `(2, [42])`, but
`get_blob(2)` hits `todo!("blob is invalid")`: `end_offset` is bound once to
`offset + 1` and never advanced, so the scan inspects the payload word
`2A FE FE FE FE FE FE FE` (whose top byte makes `is_padding` hold) instead of
walking on to the end marker.  Point lookup disagrees with iteration on every
non-empty blob. -/
theorem C2_get_blob_disagrees_with_iterator :
    (2, [42]) ∈ blobsIter (singlesBody [[], [], [42]]) ∧
    getBlob (singlesBody [[], [], [42]]) 2 = .panicInvalidBlob := by decide

/-- C3 counterexample: a padding-only word whose encoded offset equals
the looked-up offset is not rejected: `get_blob` only compares the encoded
offset, never `is_padding`, and proceeds (here all the way to `Ok`).  The
claim requires `Unaligned` whenever the word at `o` is padding-only. -/
theorem C3_get_blob_counterexample :
    isPadding (([mkMarker 0 0 .Clean, mkPadding 1, mkMarker 2 0 .Clean] :
        List Nat).getD 1 0) = true ∧
    getBlob [mkMarker 0 0 .Clean, mkPadding 1, mkMarker 2 0 .Clean] 1 = .ok [] ∧
    getBlob [mkMarker 0 0 .Clean, mkPadding 1, mkMarker 2 0 .Clean] 1 ≠
      .errUnaligned := by decide

/-- C3 amended: `get_blob(o)` fails `OutOfRange` exactly when `o` is at
or beyond the body word count, and fails `Unaligned` exactly when `o` is in
range and the word at `o` encodes an offset different from `o` — whether that
word is padding-only is never consulted.  In the remaining cases the scan is
broken (`end_offset` never advances, see C2): it returns a blob only in the
degenerate case where the word at `o + 1` is a non-padding marker encoding
`o + 1` with padding length 0 (yielding the empty blob); otherwise it panics
(`todo!`) or loops forever. -/
theorem C3_get_blob_amended (map : List Nat) (o : Nat) :
    (getBlob map o = .errOutOfRange ↔ map.length ≤ o) ∧
    (getBlob map o = .errUnaligned ↔
      (o < map.length ∧ markerOffset (map.getD o 0) ≠ o)) ∧
    (getBlob map o = .ok [] ↔
      (o < map.length ∧ markerOffset (map.getD o 0) = o ∧ o + 1 < map.length ∧
        isPadding (map.getD (o + 1) 0) = false ∧
        markerOffset (map.getD (o + 1) 0) = o + 1 ∧
        paddingLen (map.getD (o + 1) 0) = 0)) ∧
    (∀ b, getBlob map o = .ok b → b = []) := by
  unfold getBlob
  split_ifs with h1 h2 h3 h4 h5 h6 <;> simp_all

/-- Witness for the amended C3 on a fresh store (`get_blob(0)` on the body
`[terminator]` is in range and aligned, but panics). -/
theorem C3_get_blob_amended_witness :
    (getBlob createBody 0 = .errOutOfRange ↔ createBody.length ≤ 0) ∧
    (getBlob createBody 0 = .errUnaligned ↔
      (0 < createBody.length ∧ markerOffset (createBody.getD 0 0) ≠ 0)) ∧
    (getBlob createBody 0 = .ok [] ↔
      (0 < createBody.length ∧ markerOffset (createBody.getD 0 0) = 0 ∧
        0 + 1 < createBody.length ∧
        isPadding (createBody.getD (0 + 1) 0) = false ∧
        markerOffset (createBody.getD (0 + 1) 0) = 0 + 1 ∧
        paddingLen (createBody.getD (0 + 1) 0) = 0)) ∧
    (∀ b, getBlob createBody 0 = .ok b → b = []) :=
  C3_get_blob_amended createBody 0

/-- C10: a batch on which `write_blob` was never called still has
`pending_marker = None` and has written nothing; `commit` then takes the
`panic!("no blobs written")` branch instead of returning `Ok`. -/
theorem C10_commit_empty_batch_panics (body : List Nat) (b : Batch)
    (h : startBatch body = some b) :
    b.pending = none ∧ b.written = [] ∧ commit b = .panicked := by
  unfold startBatch at h
  cases hl : body.getLast? with
  | none => rw [hl] at h; simp at h
  | some m =>
      rw [hl] at h
      dsimp only at h
      by_cases hd : markerState m = .Dirty
      · rw [if_pos hd] at h; simp at h
      · rw [if_neg hd] at h
        simp only [Option.some.injEq] at h
        subst h
        exact ⟨rfl, rfl, rfl⟩

/-- Witness for C10: the batch opened on a freshly created store. -/
theorem C10_commit_empty_batch_panics_witness :
    Batch.pending { blobOffset := 0, pending := none, written := [] } = none ∧
    Batch.written { blobOffset := 0, pending := none, written := [] } = [] ∧
    commit { blobOffset := 0, pending := none, written := [] } = .panicked :=
  C10_commit_empty_batch_panics createBody
    { blobOffset := 0, pending := none, written := [] } (by decide)

/-! ### The iterator state invariant (C9) -/

/-- The `Blobs` state invariant: the slice is exhausted, or its head word
encodes exactly the iterator's current offset. -/
def blobsInv (m : List Nat) (off : Nat) : Prop :=
  m = [] ∨ markerOffset (m.headD 0) = off

theorem findEnd_spec {ws : List Nat} {t n : Nat}
    (h : findEnd ws t = some n) : markerOffset (ws.getD n 0) = t + n := by
  induction ws generalizing t n with
  | nil => simp [findEnd] at h
  | cons w ws ih =>
      rw [findEnd] at h
      by_cases hw : markerOffset w = t
      · rw [if_pos hw] at h
        simp only [Option.some.injEq] at h
        subst h
        simpa using hw
      · rw [if_neg hw] at h
        cases hfe : findEnd ws (t + 1) with
        | none => rw [hfe] at h; simp at h
        | some m2 =>
            rw [hfe] at h
            simp only [Option.map_some', Option.some.injEq] at h
            subst h
            have := ih hfe
            simp only [List.getD_cons_succ]
            omega

theorem drop_headD {ws : List Nat} {n : Nat} (h : n < ws.length) :
    (ws.drop n).headD 0 = ws.getD n 0 := by
  induction ws generalizing n with
  | nil => simp at h
  | cons w ws ih =>
      cases n with
      | zero => rfl
      | succ n =>
          simp only [List.drop_succ_cons, List.getD_cons_succ]
          exact ih (by simpa using h)

theorem blobsNew_drop (m : List Nat) (off : Nat) :
    ∃ k ≤ m.length, blobsNew m off = (m.drop k, off + k) := by
  induction m generalizing off with
  | nil => exact ⟨0, by simp, rfl⟩
  | cons w rest ih =>
      rw [blobsNew]
      by_cases hw : markerOffset w = off
      · exact ⟨0, by simp, by rw [if_pos hw]; simp⟩
      · rw [if_neg hw]
        obtain ⟨k, hk, heq⟩ := ih (off + 1)
        refine ⟨k + 1, by simpa using hk, ?_⟩
        rw [heq]
        simp only [List.drop_succ_cons, Prod.mk.injEq, true_and]
        omega

theorem blobsNew_inv (m : List Nat) (off : Nat) :
    blobsInv (blobsNew m off).1 (blobsNew m off).2 := by
  induction m generalizing off with
  | nil => exact Or.inl rfl
  | cons w rest ih =>
      rw [blobsNew]
      by_cases hw : markerOffset w = off
      · rw [if_pos hw]
        exact Or.inr hw
      · rw [if_neg hw]
        exact ih (off + 1)

theorem blobsNext_inv (m : List Nat) (off : Nat) :
    ∀ it m2 off2, blobsNext m off = some (it, m2, off2) → blobsInv m2 off2 := by
  induction m generalizing off with
  | nil => intro it m2 off2 h; simp [blobsNext] at h
  | cons w rest ih =>
      intro it m2 off2 h
      rw [blobsNext] at h
      cases hfe : findEnd rest (off + 1) with
      | none => rw [hfe] at h; simp at h
      | some n =>
          rw [hfe] at h
          dsimp only at h
          by_cases hc : paddingLen (rest.getD n 0) ≤ 8 * n
          · rw [if_pos hc] at h
            simp only [Option.some.injEq, Prod.mk.injEq] at h
            obtain ⟨_, hm2, hoff2⟩ := h
            subst hm2
            subst hoff2
            right
            rw [drop_headD (findEnd_lt_length hfe)]
            have := findEnd_spec hfe
            omega
          · rw [if_neg hc] at h
            exact ih (off + 1) it m2 off2 h

/-- C9: `Blobs::new(M, o)` terminates after dropping at most `len(M)`
head words (the result is the matching suffix of `M`, with the offset
advanced by the number of dropped words), and it establishes the invariant
that either the slice is empty or the head word's encoded offset equals the
iterator's offset; a `Blobs::next` call that yields an item leaves a state
satisfying the same invariant (the new head is the end marker just found).
A call that returns `None` exposes no new state. -/
theorem C9_blobs_new_invariant (m : List Nat) (off : Nat) :
    (∃ k ≤ m.length, blobsNew m off = (m.drop k, off + k)) ∧
    blobsInv (blobsNew m off).1 (blobsNew m off).2 ∧
    (∀ it m2 off2, blobsNext m off = some (it, m2, off2) → blobsInv m2 off2) :=
  ⟨blobsNew_drop m off, blobsNew_inv m off, blobsNext_inv m off⟩

/-- Witness for C9 on the colliding-blob test store, entered mid-payload
(offset 2 is a payload word, so `Blobs::new` resynchronizes at the end
marker). -/
theorem C9_blobs_new_invariant_witness :
    (∃ k ≤ (singlesBody [[1, 0, 0, 0, 0, 0, 0, 0xe0]]).length,
      blobsNew (singlesBody [[1, 0, 0, 0, 0, 0, 0, 0xe0]]) 1 =
        ((singlesBody [[1, 0, 0, 0, 0, 0, 0, 0xe0]]).drop k, 1 + k)) ∧
    blobsInv (blobsNew (singlesBody [[1, 0, 0, 0, 0, 0, 0, 0xe0]]) 1).1
      (blobsNew (singlesBody [[1, 0, 0, 0, 0, 0, 0, 0xe0]]) 1).2 ∧
    (∀ it m2 off2,
      blobsNext (singlesBody [[1, 0, 0, 0, 0, 0, 0, 0xe0]]) 1 = some (it, m2, off2) →
        blobsInv m2 off2) :=
  C9_blobs_new_invariant (singlesBody [[1, 0, 0, 0, 0, 0, 0, 0xe0]]) 1

/-! ### The committed tail (C6) -/

/-- The end markers laid down for `blobs`, in order (each blob's pending
marker as it ends up in the file). -/
def endMarkerList (k : Nat) : List (List Nat) → List State → List Nat
  | [], _ => []
  | blob :: rest, sts =>
      mkMarker (writeOne k blob).endOff (writeOne k blob).endPad (sts.headD .Clean) ::
        endMarkerList (writeOne k blob).endOff rest sts.tail

/-- The state the last end marker of the chain carries. -/
def lastStampState : List (List Nat) → List State → State
  | [], _ => .Clean
  | [_], sts => sts.headD .Clean
  | _ :: b :: rest, sts => lastStampState (b :: rest) sts.tail

theorem writeOne_endOff_seg (k : Nat) (blob : List Nat) :
    (writeOne k blob).endOff = k + (writeOne k blob).seg.length + 1 := by
  rw [writeOne_endOff, writeOne_seg_length]
  omega

theorem buildBody_ne_nil (k : Nat) (blob : List Nat) (rest : List (List Nat))
    (sts : List State) : buildBody k (blob :: rest) sts ≠ [] := by
  rw [buildBody]
  simp

theorem buildBody_getLast : ∀ (blobs : List (List Nat)) (sts : List State) (k : Nat),
    blobs ≠ [] →
    ∃ pad ≤ 7, (buildBody k blobs sts).getLast? =
      some (mkMarker (k + (buildBody k blobs sts).length) pad
        (lastStampState blobs sts)) := by
  intro blobs
  induction blobs with
  | nil => intro sts k h; exact absurd rfl h
  | cons blob rest ih =>
      intro sts k _
      cases rest with
      | nil =>
          refine ⟨(writeOne k blob).endPad, writeOne_endPad_le blob, ?_⟩
          rw [buildBody, buildBody, lastStampState]
          rw [List.getLast?_concat]
          have heq : (writeOne k blob).endOff =
              k + ((writeOne k blob).seg ++ [mkMarker (writeOne k blob).endOff
                (writeOne k blob).endPad (sts.headD .Clean)]).length := by
            rw [writeOne_endOff_seg]
            simp only [List.length_append, List.length_cons, List.length_nil]
            omega
          rw [← heq]
      | cons blob2 rest2 =>
          obtain ⟨pad, hpad, hlast⟩ := ih sts.tail (writeOne k blob).endOff (by simp)
          refine ⟨pad, hpad, ?_⟩
          rw [buildBody, lastStampState]
          have hsplit : (writeOne k blob).seg ++
              mkMarker (writeOne k blob).endOff (writeOne k blob).endPad
                (sts.headD .Clean) ::
                buildBody (writeOne k blob).endOff (blob2 :: rest2) sts.tail =
              ((writeOne k blob).seg ++
                [mkMarker (writeOne k blob).endOff (writeOne k blob).endPad
                  (sts.headD .Clean)]) ++
                buildBody (writeOne k blob).endOff (blob2 :: rest2) sts.tail := by
            simp
          rw [hsplit, List.getLast?_append_of_ne_nil _ (buildBody_ne_nil _ _ _ _), hlast]
          have heq : (writeOne k blob).endOff +
              (buildBody (writeOne k blob).endOff (blob2 :: rest2) sts.tail).length =
              k + (((writeOne k blob).seg ++
                [mkMarker (writeOne k blob).endOff (writeOne k blob).endPad
                  (sts.headD .Clean)]) ++
                buildBody (writeOne k blob).endOff (blob2 :: rest2) sts.tail).length := by
            rw [writeOne_endOff_seg]
            simp only [List.length_append, List.length_cons, List.length_nil]
            omega
          rw [← heq]

theorem lastStampState_stamp : ∀ blobs : List (List Nat),
    lastStampState blobs (stampStates blobs) = .Clean := by
  intro blobs
  induction blobs with
  | nil => rfl
  | cons blob rest ih =>
      cases rest with
      | nil => rfl
      | cons blob2 rest2 =>
          rw [stampStates, lastStampState]
          exact ih

theorem lastStampState_replicate : ∀ (blobs : List (List Nat)) (n : Nat),
    lastStampState blobs (List.replicate n .Clean) = .Clean := by
  intro blobs
  induction blobs with
  | nil => intro n; rfl
  | cons blob rest ih =>
      intro n
      cases rest with
      | nil => cases n <;> rfl
      | cons blob2 rest2 =>
          rw [lastStampState]
          cases n with
          | zero => exact ih 0
          | succ n => exact ih n

theorem endMarkerList_dirty : ∀ (blobs : List (List Nat)) (k : Nat),
    k + (buildBody k blobs (stampStates blobs)).length < 2 ^ 60 →
    ∀ w ∈ (endMarkerList k blobs (stampStates blobs)).dropLast,
      markerState w = .Dirty := by
  intro blobs
  induction blobs with
  | nil => intro k _ w hw; simp [endMarkerList] at hw
  | cons blob rest ih =>
      intro k hbound w hw
      cases rest with
      | nil => simp [endMarkerList] at hw
      | cons blob2 rest2 =>
          have hstamp : stampStates (blob :: blob2 :: rest2) =
              .Dirty :: stampStates (blob2 :: rest2) := rfl
          rw [hstamp, endMarkerList] at hw
          rw [List.dropLast_cons_of_ne_nil (by rw [endMarkerList]; simp)] at hw
          have hlen := buildBody_length k blob (blob2 :: rest2)
            (State.Dirty :: stampStates (blob2 :: rest2))
          rw [hstamp] at hbound
          rw [hlen] at hbound
          simp only [List.tail_cons] at hbound hw
          have hoe := writeOne_endOff_seg k blob
          rcases List.mem_cons.mp hw with h | h
          · subst h
            apply markerState_mkMarker
            · omega
            · exact writeOne_endPad_le blob
          · exact ih (writeOne k blob).endOff (by omega) w h

/-- C6: after `create` the body's single word is the Clean terminator
encoding offset 0; after one committed batch (`batchBody`) and after a
sequence of single committed `write_blob`s (`singlesBody`), the last body
word is a marker whose state is Clean and whose encoded offset equals its own
body index; and the end markers written to the file mid-batch — every end
marker of the batch but the last, each flushed still-Dirty by the following
`write_blob` and never rewritten afterwards — are Dirty. -/
theorem C6_committed_tail_clean (blobs : List (List Nat)) (hne : blobs ≠ [])
    (hbound : (batchBody blobs).length ≤ 2 ^ 60) :
    (createBody = [mkMarker 0 0 .Clean] ∧
      markerState (mkMarker 0 0 .Clean) = .Clean ∧
      markerOffset (mkMarker 0 0 .Clean) = createBody.length - 1) ∧
    (∃ m, (batchBody blobs).getLast? = some m ∧ markerState m = .Clean ∧
      markerOffset m = (batchBody blobs).length - 1) ∧
    (∃ m, (singlesBody blobs).getLast? = some m ∧ markerState m = .Clean ∧
      markerOffset m = (singlesBody blobs).length - 1) ∧
    (∀ w ∈ (endMarkerList 0 blobs (stampStates blobs)).dropLast,
      markerState w = .Dirty) := by
  obtain ⟨blob, rest, rfl⟩ : ∃ b r, blobs = b :: r := by
    cases blobs with
    | nil => exact absurd rfl hne
    | cons b r => exact ⟨b, r, rfl⟩
  have hlen : (batchBody (blob :: rest)).length =
      1 + (buildBody 0 (blob :: rest) (stampStates (blob :: rest))).length := by
    rw [batchBody]
    simp
    omega
  refine ⟨⟨rfl, by decide, by decide⟩, ?_, ?_, ?_⟩
  · obtain ⟨pad, hpad, hlast⟩ :=
      buildBody_getLast (blob :: rest) (stampStates (blob :: rest)) 0 (by simp)
    rw [lastStampState_stamp] at hlast
    refine ⟨mkMarker
        (0 + (buildBody 0 (blob :: rest) (stampStates (blob :: rest))).length)
        pad .Clean, ?_, ?_, ?_⟩
    · rw [batchBody]
      have hcons : mkMarker 0 0 .Clean ::
          buildBody 0 (blob :: rest) (stampStates (blob :: rest)) =
          [mkMarker 0 0 .Clean] ++
            buildBody 0 (blob :: rest) (stampStates (blob :: rest)) := rfl
      rw [hcons, List.getLast?_append_of_ne_nil _ (buildBody_ne_nil _ _ _ _)]
      exact hlast
    · exact markerState_mkMarker _ pad .Clean (by omega) hpad
    · rw [markerOffset_mkMarker _ pad .Clean (by omega)]
      omega
  · obtain ⟨pad, hpad, hlast⟩ := buildBody_getLast (blob :: rest)
      (List.replicate (blob :: rest).length .Clean) 0 (by simp)
    rw [lastStampState_replicate] at hlast
    have hslen : (buildBody 0 (blob :: rest)
        (List.replicate (blob :: rest).length .Clean)).length =
        (buildBody 0 (blob :: rest) (stampStates (blob :: rest))).length :=
      buildBody_length_states _ _ _ _
    refine ⟨mkMarker (0 + (buildBody 0 (blob :: rest)
        (List.replicate (blob :: rest).length .Clean)).length) pad .Clean, ?_, ?_, ?_⟩
    · rw [singlesBody]
      have hcons : mkMarker 0 0 .Clean ::
          buildBody 0 (blob :: rest) (List.replicate (blob :: rest).length .Clean) =
          [mkMarker 0 0 .Clean] ++
            buildBody 0 (blob :: rest)
              (List.replicate (blob :: rest).length .Clean) := rfl
      rw [hcons, List.getLast?_append_of_ne_nil _ (buildBody_ne_nil _ _ _ _)]
      exact hlast
    · exact markerState_mkMarker _ pad .Clean (by omega) hpad
    · rw [markerOffset_mkMarker _ pad .Clean (by omega)]
      rw [singlesBody]
      simp only [List.length_cons]
      omega
  · exact endMarkerList_dirty (blob :: rest) 0 (by omega)

/-- Witness for C6 at the two-blob batch `[], [5]` (the first end marker
stays Dirty in the file, the final one is Clean at the last body index). -/
theorem C6_committed_tail_clean_witness :
    (createBody = [mkMarker 0 0 .Clean] ∧
      markerState (mkMarker 0 0 .Clean) = .Clean ∧
      markerOffset (mkMarker 0 0 .Clean) = createBody.length - 1) ∧
    (∃ m, (batchBody [[], [5]]).getLast? = some m ∧ markerState m = .Clean ∧
      markerOffset m = (batchBody [[], [5]]).length - 1) ∧
    (∃ m, (singlesBody [[], [5]]).getLast? = some m ∧ markerState m = .Clean ∧
      markerOffset m = (singlesBody [[], [5]]).length - 1) ∧
    (∀ w ∈ (endMarkerList 0 [[], [5]] (stampStates [[], [5]])).dropLast,
      markerState w = .Dirty) :=
  C6_committed_tail_clean [[], [5]] (by decide) (by decide)

/-! ### Binary search (src/lib.rs lines 383-440)

`binary_search_in_range` bisects `[lo, hi)`: it seeds a forward iterator at
the midpoint (`Blobs::new(&map[mid..], mid)`), walks its yields while the
comparator answers `Next` (skipping nothing: a yield at or past `hi`, or an
exhausted iterator, sends the search to the left half `[lo, mid)` when
non-empty), and on `Left`/`Right` recurses on `[lo, mid)` / `[mid + 1, hi)`.
The model is instrumented with the list of offsets passed to the comparator,
in call order, which is what claim C4 is about. -/

/-- The comparator's verdict: `Ok(Some(r))`, `Ok(None)`,
`Err(Search::Left)`, `Err(Search::Right)`, `Err(Search::Next)`. -/
inductive SearchVerdict (R : Type) where
  | found (r : R)
  | stop
  | left
  | right
  | next
deriving DecidableEq, Repr

/-- The blobs one bisection level walks: the yields of the forward iterator
seeded at the midpoint. -/
def levelCands (map : List Nat) (mid : Nat) : List (Nat × List Nat) :=
  blobsList (blobsNew (map.drop mid) mid).1 (blobsNew (map.drop mid) mid).2

/-- A recursion frame of the search: either a range `[lo, hi)` still to
bisect, or a level walking its midpoint's candidate blobs. -/
inductive BsFrame (R : Type) where
  | range (lo hi : Nat)
  | walk (lo hi mid : Nat) (cands : List (Nat × List Nat))

/-- The function `binary_search_in_range`, instrumented: returns the search result and
the offsets passed to the comparator, in call order.  One fuel counter
drives all recursion; each step either opens a level (strictly shrinking
`hi - lo`) or consumes one candidate of the current level, so
`(map.length + 2) ^ 2` fuel (supplied by `binarySearch`) can never run out.
The source panics when `lo > hi`; the public entry point only ever recurses
with `lo ≤ hi`, and the model returns `(none, [])` for inverted and empty
ranges alike. -/
def bsRun {R : Type} (map : List Nat) (f : Nat → List Nat → SearchVerdict R) :
    Nat → BsFrame R → Option R × List Nat
  | 0, _ => (none, [])
  | fuel + 1, .range lo hi =>
      if hi ≤ lo then (none, [])
      else bsRun map f fuel (.walk lo hi ((lo + hi) / 2) (levelCands map ((lo + hi) / 2)))
  | fuel + 1, .walk lo hi mid [] =>
      if lo ≠ mid then bsRun map f fuel (.range lo mid) else (none, [])
  | fuel + 1, .walk lo hi mid ((o, blob) :: rest) =>
      if o < hi then
        match f o blob with
        | .found r => (some r, [o])
        | .stop => (none, [o])
        | .next =>
            ((bsRun map f fuel (.walk lo hi mid rest)).1,
             o :: (bsRun map f fuel (.walk lo hi mid rest)).2)
        | .right =>
            ((bsRun map f fuel (.range (mid + 1) hi)).1,
             o :: (bsRun map f fuel (.range (mid + 1) hi)).2)
        | .left =>
            ((bsRun map f fuel (.range lo mid)).1,
             o :: (bsRun map f fuel (.range lo mid)).2)
      else if lo ≠ mid then bsRun map f fuel (.range lo mid) else (none, [])

/-- From `Breccia::binary_search` (src/lib.rs line 385): search `[0, map.len())`. -/
def binarySearch {R : Type} (map : List Nat)
    (f : Nat → List Nat → SearchVerdict R) : Option R × List Nat :=
  bsRun map f ((map.length + 2) * (map.length + 2)) (.range 0 map.length)

/-- A store of nine empty-blob records: markers 0..8, blobs at offsets 0..7. -/
def c4Map : List Nat := (List.range 9).map (fun i => mkMarker i 0 .Clean)

/-- A comparator answering Next at 4, Right at 5, Left elsewhere. -/
def c4Cmp : Nat → List Nat → SearchVerdict Unit := fun o _ =>
  if o = 4 then .next else if o = 5 then .right else .left

/-- C4 counterexample: one `binary_search` call passes offset 5 to the
comparator twice.  The first level (mid 4) probes 4 (`Next`) then 5
(`Right`); the `Right` recursion on `[5, 9)` excludes only the midpoint 4,
not the probed offset 5, and after two `Left` steps the range `[5, 6)`
re-probes 5.  The claim says no offset is passed twice within one search. -/
theorem C4_comparator_repeat_counterexample :
    (binarySearch c4Map c4Cmp).2 = [4, 5, 7, 6, 5] ∧
    ¬ ((binarySearch c4Map c4Cmp).2).Nodup := by decide

/-- The offsets one level passes to the comparator: the candidates in order,
cut off at the first candidate at or past `hi` and at the first verdict
other than `Next` (which is still probed). -/
def walkProbes {R : Type} (f : Nat → List Nat → SearchVerdict R) (hi : Nat) :
    List (Nat × List Nat) → List Nat
  | [] => []
  | (o, blob) :: rest =>
      if o < hi then
        match f o blob with
        | .next => o :: walkProbes f hi rest
        | _ => [o]
      else []

theorem blobsNext_offset_bounds {m : List Nat} {off : Nat}
    {o : Nat} {b : List Nat} {m2 : List Nat} {off2 : Nat}
    (h : blobsNext m off = some ((o, b), m2, off2)) : off ≤ o ∧ o < off2 := by
  induction m generalizing off o b m2 off2 with
  | nil => simp [blobsNext] at h
  | cons w rest ih =>
      rw [blobsNext] at h
      cases hfe : findEnd rest (off + 1) with
      | none => rw [hfe] at h; simp at h
      | some n =>
          rw [hfe] at h
          dsimp only at h
          by_cases hc : paddingLen (rest.getD n 0) ≤ 8 * n
          · rw [if_pos hc] at h
            simp only [Option.some.injEq, Prod.mk.injEq] at h
            obtain ⟨⟨ho, _⟩, _, hoff2⟩ := h
            omega
          · rw [if_neg hc] at h
            have := ih h
            omega

theorem blobsListF_fst_chain : ∀ (fuel : Nat) (m : List Nat) (off : Nat),
    List.Chain' (· < ·) ((blobsListF fuel m off).map Prod.fst) ∧
    ∀ x ∈ (blobsListF fuel m off).map Prod.fst, off ≤ x := by
  intro fuel
  induction fuel with
  | zero => intro m off; simp [blobsListF]
  | succ fuel ih =>
      intro m off
      rw [blobsListF]
      cases hnext : blobsNext m off with
      | none => simp
      | some x =>
          obtain ⟨⟨o, b⟩, m2, off2⟩ := x
          obtain ⟨hb1, hb2⟩ := blobsNext_offset_bounds hnext
          obtain ⟨hchain, hlb⟩ := ih m2 off2
          dsimp only
          simp only [List.map_cons]
          constructor
          · rw [List.chain'_cons']
            refine ⟨?_, hchain⟩
            intro y hy
            have hmem : y ∈ (blobsListF fuel m2 off2).map Prod.fst :=
              List.mem_of_mem_head? hy
            have := hlb y hmem
            omega
          · intro x hx
            rcases List.mem_cons.mp hx with h | h
            · omega
            · have := hlb x h
              omega

theorem walkProbes_sublist {R : Type} (f : Nat → List Nat → SearchVerdict R)
    (hi : Nat) : ∀ cands : List (Nat × List Nat),
    (walkProbes f hi cands).Sublist (cands.map Prod.fst) := by
  intro cands
  induction cands with
  | nil => simp [walkProbes]
  | cons c rest ih =>
      obtain ⟨o, blob⟩ := c
      rw [walkProbes]
      by_cases ho : o < hi
      · rw [if_pos ho]
        cases f o blob with
        | next => exact (ih.cons₂ o)
        | found r => exact (List.nil_sublist _).cons₂ o
        | stop => exact (List.nil_sublist _).cons₂ o
        | left => exact (List.nil_sublist _).cons₂ o
        | right => exact (List.nil_sublist _).cons₂ o
      · rw [if_neg ho]
        exact List.nil_sublist _

theorem walkProbes_chain {R : Type} (f : Nat → List Nat → SearchVerdict R)
    (hi : Nat) (cands : List (Nat × List Nat))
    (hchain : List.Chain' (· < ·) (cands.map Prod.fst)) :
    List.Chain' (· < ·) (walkProbes f hi cands) ∧ (walkProbes f hi cands).Nodup := by
  have hpw : (cands.map Prod.fst).Pairwise (· < ·) :=
    (List.chain'_iff_pairwise.mp hchain)
  have hsub := walkProbes_sublist f hi cands
  have hpw2 : (walkProbes f hi cands).Pairwise (· < ·) := hpw.sublist hsub
  exact ⟨List.chain'_iff_pairwise.mpr hpw2,
    hpw2.imp (fun h => Nat.ne_of_lt h)⟩

theorem bsRun_walk_prefix {R : Type} (map : List Nat)
    (f : Nat → List Nat → SearchVerdict R) :
    ∀ (cands : List (Nat × List Nat)) (fuel lo hi mid : Nat),
    cands.length ≤ fuel →
    ∃ t, (bsRun map f (fuel + 1) (.walk lo hi mid cands)).2 =
      walkProbes f hi cands ++ t := by
  intro cands
  induction cands with
  | nil =>
      intro fuel lo hi mid _
      rw [walkProbes]
      exact ⟨(bsRun map f (fuel + 1) (.walk lo hi mid [])).2, by simp⟩
  | cons c rest ih =>
      intro fuel lo hi mid hfuel
      obtain ⟨o, blob⟩ := c
      match fuel, hfuel with
      | fuel + 1, hf2 =>
        rw [walkProbes, bsRun]
        by_cases ho : o < hi
        · rw [if_pos ho, if_pos ho]
          cases hv : f o blob with
          | next =>
              obtain ⟨t, ht⟩ := ih fuel lo hi mid (by
                simp only [List.length_cons] at hf2
                omega)
              refine ⟨t, ?_⟩
              dsimp only
              rw [ht]
              simp
          | found r => exact ⟨[], by simp⟩
          | stop => exact ⟨[], by simp⟩
          | left => exact ⟨(bsRun map f (fuel + 1) (.range lo mid)).2, by simp⟩
          | right => exact ⟨(bsRun map f (fuel + 1) (.range (mid + 1) hi)).2, by simp⟩
        · rw [if_neg ho, if_neg ho]
          exact ⟨(if lo ≠ mid then bsRun map f (fuel + 1) (.range lo mid)
            else (none, [])).2, by split <;> simp⟩

/-- C4 amended: within one bisection level the comparator sees strictly
increasing offsets — the probes of a level are a subsequence of the seeded
iterator's strictly increasing yields — so no offset repeats *within a
level*.  Across recursive sub-searches the `Right` recursion excludes only
the midpoint itself, so an offset past the midpoint that already received a
verdict can be probed again in a sub-range (see the counterexample). -/
theorem C4_probes_once_per_level {R : Type} (map : List Nat)
    (f : Nat → List Nat → SearchVerdict R) (lo hi mid fuel : Nat)
    (hfuel : (levelCands map mid).length ≤ fuel) :
    List.Chain' (· < ·) (walkProbes f hi (levelCands map mid)) ∧
    (walkProbes f hi (levelCands map mid)).Nodup ∧
    ∃ t, (bsRun map f (fuel + 1) (.walk lo hi mid (levelCands map mid))).2 =
      walkProbes f hi (levelCands map mid) ++ t := by
  have hchain : List.Chain' (· < ·) ((levelCands map mid).map Prod.fst) :=
    (blobsListF_fst_chain (blobsNew (map.drop mid) mid).1.length
      (blobsNew (map.drop mid) mid).1 (blobsNew (map.drop mid) mid).2).1
  obtain ⟨h1, h2⟩ := walkProbes_chain f hi (levelCands map mid) hchain
  exact ⟨h1, h2, bsRun_walk_prefix map f (levelCands map mid) fuel lo hi mid hfuel⟩

/-- Witness for the amended C4 at the counterexample store's first level
(mid 4, range `[0, 9)`): the level's probes are `[4, 5]`, strictly
increasing, and they are an initial segment of the full probe trace. -/
theorem C4_probes_once_per_level_witness :
    List.Chain' (· < ·) (walkProbes c4Cmp 9 (levelCands c4Map 4)) ∧
    (walkProbes c4Cmp 9 (levelCands c4Map 4)).Nodup ∧
    ∃ t, (bsRun c4Map c4Cmp (120 + 1) (.walk 0 9 4 (levelCands c4Map 4))).2 =
      walkProbes c4Cmp 9 (levelCands c4Map 4) ++ t :=
  C4_probes_once_per_level c4Map c4Cmp 0 9 4 120 (by decide)

/-! ### The reverse iterator: `Blobs::next_back` (src/lib.rs lines 323-368)

`next_back` first consumes trailing padding-only words (checking that the
last two words both encode their own indices and the very last is
padding-only), then — note the source compares `self.map[start_offset].offset()`
with `Offset::new(start_offset)`, an index relative to the slice, so reverse
iteration is exact for an iterator whose `offset` is 0, which is what
`blobs()` constructs and what `next_back`, which never changes `offset`,
maintains — scans `start_offset` downward from `len - 2` for the first word
encoding its own index, and emits the blob between that start marker and the
final end marker, truncating the slice to `[0 ..= start_offset]`. -/

/-- The guard of the padding-consuming loop in `next_back`. -/
def trimCond (m : List Nat) (off : Nat) : Prop :=
  2 ≤ m.length ∧
  markerOffset (m.getD (m.length - 2) 0) = off + m.length - 2 ∧
  markerOffset (m.getD (m.length - 1) 0) = off + m.length - 1 ∧
  isPadding (m.getD (m.length - 1) 0) = true

instance (m : List Nat) (off : Nat) : Decidable (trimCond m off) := by
  unfold trimCond
  infer_instance

/-- The padding-consuming loop (each iteration drops the last word;
`m.length` fuel always suffices). -/
def trimPadsF : Nat → List Nat → Nat → List Nat
  | 0, m, _ => m
  | fuel + 1, m, off =>
      if trimCond m off then trimPadsF fuel m.dropLast off else m

/-- The downward scan for the blob's start marker.  The source asserts
`start_offset > 0` before decrementing, so reaching index 0 without a match
panics; reaching it with a match is the first blob of the file. -/
def findStart (m : List Nat) : Nat → Option Nat
  | 0 => if markerOffset (m.getD 0 0) = 0 then some 0 else none
  | s + 1 =>
      if markerOffset (m.getD (s + 1) 0) = s + 1 then some (s + 1)
      else findStart m s

inductive NextBackResult where
  | done
  | item (off : Nat) (blob : List Nat) (rest : List Nat)
  | panicked
deriving DecidableEq, Repr

/-- One `next_back` call on slice `m` with iterator offset `off`:
trim trailing padding, stop when fewer than two words remain, scan down for
the start marker (`panicked` models the failed `assert!`), and emit the blob
minus the end marker's claimed tail fill (`panicked` also models the
`unreachable!` when the fill exceeds the payload). -/
def nextBack (m : List Nat) (off : Nat) : NextBackResult :=
  if (trimPadsF m.length m off).length < 2 then .done
  else
    match findStart (trimPadsF m.length m off)
        ((trimPadsF m.length m off).length - 2) with
    | none => .panicked
    | some s =>
        if paddingLen ((trimPadsF m.length m off).getD
              ((trimPadsF m.length m off).length - 1) 0) ≤
            (bytesOfWords (((trimPadsF m.length m off).take
              ((trimPadsF m.length m off).length - 1)).drop (s + 1))).length then
          .item s
            ((bytesOfWords (((trimPadsF m.length m off).take
                ((trimPadsF m.length m off).length - 1)).drop (s + 1))).take
              ((bytesOfWords (((trimPadsF m.length m off).take
                ((trimPadsF m.length m off).length - 1)).drop (s + 1))).length -
               paddingLen ((trimPadsF m.length m off).getD
                 ((trimPadsF m.length m off).length - 1) 0)))
            ((trimPadsF m.length m off).take (s + 1))
        else .panicked

/-- Repeated `next_back` from a `blobs()` iterator (offset 0), collecting the
items; `none` if a call panics. -/
def revListF : Nat → List Nat → Option (List (Nat × List Nat))
  | 0, _ => some []
  | fuel + 1, m =>
      match nextBack m 0 with
      | .done => some []
      | .panicked => none
      | .item o b rest => (revListF fuel rest).map (fun l => (o, b) :: l)

def revBlobs (m : List Nat) : Option (List (Nat × List Nat)) :=
  revListF m.length m

/-! ### Index-arithmetic helpers -/

theorem getD_append_add : ∀ (A l2 : List Nat) (i : Nat),
    (A ++ l2).getD (A.length + i) 0 = l2.getD i 0 := by
  intro A
  induction A with
  | nil => intro l2 i; simp
  | cons a A ih =>
      intro l2 i
      simp only [List.cons_append, List.length_cons]
      have e : A.length + 1 + i = (A.length + i) + 1 := by omega
      rw [e, List.getD_cons_succ, ih]

theorem getD_append_lt : ∀ (A l2 : List Nat) (i : Nat), i < A.length →
    (A ++ l2).getD i 0 = A.getD i 0 := by
  intro A
  induction A with
  | nil => intro l2 i h; simp at h
  | cons a A ih =>
      intro l2 i h
      cases i with
      | zero => rfl
      | succ i =>
          simp only [List.cons_append, List.getD_cons_succ]
          exact ih l2 i (by simpa using h)

theorem getD_of_getLast? : ∀ (l : List Nat) (x : Nat), l.getLast? = some x →
    l.getD (l.length - 1) 0 = x := by
  intro l
  induction l with
  | nil => intro x h; simp at h
  | cons a l ih =>
      intro x h
      cases l with
      | nil => simp at h; simp [h]
      | cons b l2 =>
          rw [List.getLast?_cons_cons] at h
          have := ih x h
          simpa using this

theorem rangeMap_getD : ∀ (n s i : Nat), i < n →
    ((List.range' s n).map mkPadding).getD i 0 = mkPadding (s + i) := by
  intro n
  induction n with
  | zero => intro s i h; omega
  | succ n ih =>
      intro s i h
      rw [List.range'_succ]
      cases i with
      | zero => simp
      | succ i =>
          simp only [List.map_cons, List.getD_cons_succ]
          rw [ih (s + 1) i (by omega)]
          congr 1
          omega

theorem bytesOfWords_length : ∀ ws : List Nat,
    (bytesOfWords ws).length = 8 * ws.length := by
  intro ws
  induction ws with
  | nil => rfl
  | cons w ws ih =>
      show (toBytes w ++ bytesOfWords ws).length = _
      simp only [List.length_append, ih, toBytes, List.length_cons]
      simp
      omega

theorem offsetsFrom_length : ∀ (blobs : List (List Nat)) (k : Nat),
    (offsetsFrom k blobs).length = blobs.length := by
  intro blobs
  induction blobs with
  | nil => intro k; rfl
  | cons blob rest ih =>
      intro k
      rw [offsetsFrom]
      simp [ih]

/-- The `blob_offset` after writing `blobs` from base `k` (the body index of
the file's new last word). -/
def afterOff (k : Nat) : List (List Nat) → Nat
  | [] => k
  | blob :: rest => afterOff (writeOne k blob).endOff rest

theorem afterOff_eq : ∀ (blobs : List (List Nat)) (k : Nat) (sts : List State),
    afterOff k blobs = k + (buildBody k blobs sts).length := by
  intro blobs
  induction blobs with
  | nil => intro k sts; simp [afterOff, buildBody]
  | cons blob rest ih =>
      intro k sts
      rw [afterOff, buildBody, ih _ sts.tail]
      simp only [List.length_append, List.length_cons]
      rw [writeOne_endOff_seg]
      omega

theorem headD_take (sts : List State) (n : Nat) :
    (sts.take (n + 1)).headD .Clean = sts.headD .Clean := by
  cases sts <;> rfl

theorem tail_take (sts : List State) (n : Nat) :
    (sts.take (n + 1)).tail = sts.tail.take n := by
  cases sts <;> simp

theorem drop_succ_tail (sts : List State) (n : Nat) :
    sts.drop (n + 1) = sts.tail.drop n := by
  cases sts <;> simp

theorem buildBody_append : ∀ (bl1 bl2 : List (List Nat)) (k : Nat) (sts : List State),
    buildBody k (bl1 ++ bl2) sts =
      buildBody k bl1 (sts.take bl1.length) ++
        buildBody (afterOff k bl1) bl2 (sts.drop bl1.length) := by
  intro bl1
  induction bl1 with
  | nil => intro bl2 k sts; simp [buildBody, afterOff]
  | cons blob bl1 ih =>
      intro bl2 k sts
      rw [List.cons_append, buildBody, ih bl2 (writeOne k blob).endOff sts.tail]
      simp only [List.length_cons]
      rw [buildBody, headD_take, tail_take, drop_succ_tail]
      rw [afterOff]
      simp

theorem offsetsFrom_append : ∀ (bl1 bl2 : List (List Nat)) (k : Nat),
    offsetsFrom k (bl1 ++ bl2) =
      offsetsFrom k bl1 ++ offsetsFrom (afterOff k bl1) bl2 := by
  intro bl1
  induction bl1 with
  | nil => intro bl2 k; simp [offsetsFrom, afterOff]
  | cons blob bl1 ih =>
      intro bl2 k
      rw [List.cons_append, offsetsFrom, offsetsFrom, afterOff, ih]
      simp

theorem writeOne_ret (k : Nat) (blob : List Nat) :
    (writeOne k blob).ret = k + computePadding k (payloadWords blob) := rfl

theorem trimCond_false_of (B : List Nat)
    (h : isPadding (B.getD (B.length - 1) 0) = false ∨
      markerOffset (B.getD (B.length - 2) 0) ≠ 0 + B.length - 2) :
    ¬ trimCond B 0 := by
  intro ⟨_, h2, _, h4⟩
  rcases h with h | h
  · rw [h4] at h; cases h
  · exact h h2

theorem isPadding_mkPadding (x : Nat) (hx : x < 2 ^ 60) :
    isPadding (mkPadding x) = true :=
  (isPadding_mkMarker x 7 .Dirty hx (by norm_num)).mpr ⟨rfl, rfl⟩

theorem markerOffset_mkPadding (x : Nat) (hx : x < 2 ^ 60) :
    markerOffset (mkPadding x) = x :=
  markerOffset_mkMarker x 7 .Dirty hx

theorem trimPads_strip : ∀ (p fuel : Nat) (B : List Nat),
    1 ≤ B.length → p ≤ fuel → B.length + p ≤ 2 ^ 60 →
    markerOffset (B.getD (B.length - 1) 0) = B.length - 1 →
    ¬ trimCond B 0 →
    trimPadsF fuel (B ++ (List.range' B.length p).map mkPadding) 0 = B := by
  intro p
  induction p with
  | zero =>
      intro fuel B h1 _ _ _ hnc
      simp only [List.range'_zero, List.map_nil, List.append_nil]
      cases fuel with
      | zero => rfl
      | succ f => rw [trimPadsF, if_neg hnc]
  | succ p ih =>
      intro fuel B h1 hf hb hm hnc
      match fuel, hf with
      | fuel + 1, _ =>
        have hsplit : (List.range' B.length (p + 1)).map mkPadding =
            (List.range' B.length p).map mkPadding ++ [mkPadding (B.length + p)] := by
          rw [List.range'_concat]
          simp
        rw [trimPadsF, hsplit, ← List.append_assoc]
        have hAlen : (B ++ (List.range' B.length p).map mkPadding).length =
            B.length + p := by simp
        have hLlen : ((B ++ (List.range' B.length p).map mkPadding) ++
            [mkPadding (B.length + p)]).length = B.length + p + 1 := by
          simp
          omega
        have hlast : ((B ++ (List.range' B.length p).map mkPadding) ++
            [mkPadding (B.length + p)]).getD (B.length + p) 0 =
            mkPadding (B.length + p) := by
          rw [← hAlen]
          exact getD_append_length _ _ _
        have hsecondoff : markerOffset (((B ++ (List.range' B.length p).map
            mkPadding) ++ [mkPadding (B.length + p)]).getD (B.length + p - 1) 0) =
            B.length + p - 1 := by
          rw [getD_append_lt _ _ _ (by rw [hAlen]; omega)]
          cases p with
          | zero =>
              rw [Nat.add_zero]
              rw [getD_append_lt _ _ _ (by omega)]
              exact hm
          | succ q =>
              have he : B.length + (q + 1) - 1 = B.length + q := by omega
              rw [he, getD_append_add B _ q, rangeMap_getD (q + 1) B.length q (by omega)]
              rw [markerOffset_mkPadding _ (by omega)]
        have hcond : trimCond ((B ++ (List.range' B.length p).map mkPadding) ++
            [mkPadding (B.length + p)]) 0 := by
          refine ⟨by rw [hLlen]; omega, ?_, ?_, ?_⟩
          · have hi2 : ((B ++ (List.range' B.length p).map mkPadding) ++
                [mkPadding (B.length + p)]).length - 2 = B.length + p - 1 := by
              rw [hLlen]
              omega
            rw [hi2, hsecondoff, hLlen]
            omega
          · have hi1 : ((B ++ (List.range' B.length p).map mkPadding) ++
                [mkPadding (B.length + p)]).length - 1 = B.length + p := by
              rw [hLlen]
              omega
            rw [hi1, hlast, markerOffset_mkPadding _ (by omega), hLlen]
            omega
          · have hi1 : ((B ++ (List.range' B.length p).map mkPadding) ++
                [mkPadding (B.length + p)]).length - 1 = B.length + p := by
              rw [hLlen]
              omega
            rw [hi1, hlast]
            exact isPadding_mkPadding _ (by omega)
        rw [if_pos hcond, List.dropLast_concat]
        exact ih fuel B h1 (by omega) (by omega) hm hnc

theorem findStart_spec (m : List Nat) : ∀ (s s0 : Nat), s0 ≤ s →
    markerOffset (m.getD s0 0) = s0 →
    (∀ j, s0 < j → j ≤ s → markerOffset (m.getD j 0) ≠ j) →
    findStart m s = some s0 := by
  intro s
  induction s with
  | zero =>
      intro s0 h0 hm _
      have : s0 = 0 := by omega
      subst this
      rw [findStart, if_pos hm]
  | succ s ih =>
      intro s0 h0 hm hno
      by_cases he : s0 = s + 1
      · subst he
        rw [findStart, if_pos hm]
      · rw [findStart, if_neg (hno (s + 1) (by omega) le_rfl)]
        exact ih s0 (by omega) hm (fun j hj1 hj2 => hno j hj1 (by omega))

/-- One `next_back` call on a committed record chain for `bl1 ++ [b]`,
possibly followed by a run of padding-only words (left behind by a previous
`next_back` truncation): it yields the last blob `b` at its returned offset
and truncates to the chain for `bl1` followed by `b`'s pad markers. -/
theorem nextBack_snoc (w : Nat) (hw : markerOffset w = 0)
    (bl1 : List (List Nat)) (b : List Nat) (sts : List State) (p2 : Nat)
    (hbytes : ∀ x ∈ b, x < 256)
    (hbound : (w :: buildBody 0 (bl1 ++ [b]) sts).length + p2 ≤ 2 ^ 60)
    (hlast1 : markerOffset ((w :: buildBody 0 bl1 (sts.take bl1.length)).getD
      (afterOff 0 bl1) 0) = afterOff 0 bl1) :
    nextBack (w :: buildBody 0 (bl1 ++ [b]) sts ++
        (List.range' (w :: buildBody 0 (bl1 ++ [b]) sts).length p2).map mkPadding) 0 =
      .item (writeOne (afterOff 0 bl1) b).ret b
        (w :: buildBody 0 bl1 (sts.take bl1.length) ++
          (List.range' (w :: buildBody 0 bl1 (sts.take bl1.length)).length
            (computePadding (afterOff 0 bl1) (payloadWords b))).map mkPadding) := by
  have hc : afterOff 0 bl1 = (buildBody 0 bl1 (sts.take bl1.length)).length := by
    simpa using afterOff_eq bl1 0 (sts.take bl1.length)
  have hdecomp : buildBody 0 (bl1 ++ [b]) sts =
      buildBody 0 bl1 (sts.take bl1.length) ++
        ((writeOne (afterOff 0 bl1) b).seg ++
          [mkMarker (writeOne (afterOff 0 bl1) b).endOff
            (writeOne (afterOff 0 bl1) b).endPad
            ((sts.drop bl1.length).headD .Clean)]) := by
    rw [buildBody_append]
    simp [buildBody]
  have hBeq : w :: buildBody 0 (bl1 ++ [b]) sts =
      (w :: buildBody 0 bl1 (sts.take bl1.length) ++
        (writeOne (afterOff 0 bl1) b).seg) ++
        [mkMarker (writeOne (afterOff 0 bl1) b).endOff
          (writeOne (afterOff 0 bl1) b).endPad
          ((sts.drop bl1.length).headD .Clean)] := by
    rw [hdecomp]
    simp
  have hBlen : (w :: buildBody 0 (bl1 ++ [b]) sts).length =
      (writeOne (afterOff 0 bl1) b).endOff + 1 := by
    rw [hBeq]
    simp only [List.length_append, List.length_cons, List.length_nil]
    rw [writeOne_endOff_seg, hc]
    omega
  have hsegsplit : (writeOne (afterOff 0 bl1) b).seg =
      (List.range' (afterOff 0 bl1 + 1)
        (computePadding (afterOff 0 bl1) (payloadWords b))).map mkPadding ++
        payloadWords b := writeOne_seg _ b
  have hwords : 8 * (payloadWords b).length =
      b.length + ((b.length + 7) / 8 * 8 - b.length) := by
    rw [payloadWords_length]
    omega
  have hep7 : (writeOne (afterOff 0 bl1) b).endPad ≤ 7 := writeOne_endPad_le b
  have hepws : (writeOne (afterOff 0 bl1) b).endPad ≤ 8 * (payloadWords b).length :=
    writeOne_endPad_le_words b
  have heo : (writeOne (afterOff 0 bl1) b).endOff = afterOff 0 bl1 +
      computePadding (afterOff 0 bl1) (payloadWords b) + 1 +
      (payloadWords b).length := writeOne_endOff _ b
  have hcol := computePadding_not_collide (afterOff 0 bl1) (payloadWords b)
  rw [collideAux_eq_false_iff] at hcol
  -- the trimmed slice is the chain itself
  have hnotrim : ¬ trimCond (w :: buildBody 0 (bl1 ++ [b]) sts) 0 := by
    apply trimCond_false_of
    by_cases hep : (writeOne (afterOff 0 bl1) b).endPad = 0
    · left
      have hgl : (w :: buildBody 0 (bl1 ++ [b]) sts).getD
          ((w :: buildBody 0 (bl1 ++ [b]) sts).length - 1) 0 =
          mkMarker (writeOne (afterOff 0 bl1) b).endOff
            (writeOne (afterOff 0 bl1) b).endPad
            ((sts.drop bl1.length).headD .Clean) := by
        rw [hBeq]
        have hidx : (((w :: buildBody 0 bl1 (sts.take bl1.length) ++
            (writeOne (afterOff 0 bl1) b).seg) ++
            [mkMarker (writeOne (afterOff 0 bl1) b).endOff
              (writeOne (afterOff 0 bl1) b).endPad
              ((sts.drop bl1.length).headD .Clean)]).length - 1) =
            (w :: buildBody 0 bl1 (sts.take bl1.length) ++
              (writeOne (afterOff 0 bl1) b).seg).length := by
          simp
          omega
        rw [hidx]
        exact getD_append_length _ _ _
      rw [hgl]
      rw [isPadding, paddingLen_mkMarker _ _ _ (by rw [heo]; omega) hep7, hep]
      simp
    · right
      -- the word before the end marker is the last payload word
      have hws_ne : (payloadWords b).length ≥ 1 := by
        rw [payloadWords_length]
        by_contra hlt
        push_neg at hlt
        interval_cases h : (b.length + 7) / 8
        · have : b.length = 0 := by omega
          apply hep
          rw [writeOne]
          dsimp only
          omega
      obtain ⟨wsInit, wlastp, hwsplit⟩ :
          ∃ i l, payloadWords b = i ++ [l] := by
        cases hpw : payloadWords b with
        | nil => rw [hpw] at hws_ne; simp at hws_ne
        | cons x xs =>
            refine ⟨(x :: xs).dropLast, (x :: xs).getLast (by simp), ?_⟩
            exact (List.dropLast_append_getLast (by simp)).symm
      have hA2 : w :: buildBody 0 (bl1 ++ [b]) sts =
          ((w :: buildBody 0 bl1 (sts.take bl1.length) ++
            (List.range' (afterOff 0 bl1 + 1)
              (computePadding (afterOff 0 bl1) (payloadWords b))).map mkPadding ++
            wsInit) ++
            (wlastp :: [mkMarker (writeOne (afterOff 0 bl1) b).endOff
              (writeOne (afterOff 0 bl1) b).endPad
              ((sts.drop bl1.length).headD .Clean)])) := by
        rw [hBeq, hsegsplit, hwsplit]
        simp
      have hA2len : (w :: buildBody 0 bl1 (sts.take bl1.length) ++
          (List.range' (afterOff 0 bl1 + 1)
            (computePadding (afterOff 0 bl1) (payloadWords b))).map mkPadding ++
          wsInit).length = (writeOne (afterOff 0 bl1) b).endOff - 1 := by
        have hwl : wsInit.length = (payloadWords b).length - 1 := by
          have := congrArg List.length hwsplit
          simp at this
          omega
        simp only [List.length_append, List.length_cons, List.length_map,
          List.length_range', hwl]
        rw [heo, ← hc]
        omega
      have hsecond : (w :: buildBody 0 (bl1 ++ [b]) sts).getD
          ((w :: buildBody 0 (bl1 ++ [b]) sts).length - 2) 0 = wlastp := by
        rw [hA2]
        have hidx : ((w :: buildBody 0 bl1 (sts.take bl1.length) ++
            (List.range' (afterOff 0 bl1 + 1)
              (computePadding (afterOff 0 bl1) (payloadWords b))).map mkPadding ++
            wsInit) ++
            (wlastp :: [mkMarker (writeOne (afterOff 0 bl1) b).endOff
              (writeOne (afterOff 0 bl1) b).endPad
              ((sts.drop bl1.length).headD .Clean)])).length - 2 =
            (w :: buildBody 0 bl1 (sts.take bl1.length) ++
              (List.range' (afterOff 0 bl1 + 1)
                (computePadding (afterOff 0 bl1) (payloadWords b))).map mkPadding ++
              wsInit).length := by
          simp only [List.length_append, List.length_cons, List.length_nil]
          omega
        rw [hidx]
        exact getD_append_length _ _ _
      rw [hsecond]
      have hwl2 : wlastp = (payloadWords b).getD ((payloadWords b).length - 1) 0 := by
        rw [hwsplit]
        have := congrArg List.length hwsplit
        simp at this
        have hidx2 : (payloadWords b).length - 1 = wsInit.length := by omega
        rw [hwsplit] at hidx2
        rw [hidx2]
        exact (getD_append_length _ _ _).symm
      rw [hwl2]
      have hcol2 := hcol ((payloadWords b).length - 1) (by omega)
      intro hcontra
      apply hcol2
      rw [hcontra, hBlen, heo]
      omega
  have htrim : trimPadsF
      (w :: buildBody 0 (bl1 ++ [b]) sts ++
        (List.range' (w :: buildBody 0 (bl1 ++ [b]) sts).length p2).map mkPadding).length
      (w :: buildBody 0 (bl1 ++ [b]) sts ++
        (List.range' (w :: buildBody 0 (bl1 ++ [b]) sts).length p2).map mkPadding) 0 =
      w :: buildBody 0 (bl1 ++ [b]) sts := by
    apply trimPads_strip
    · simp
    · simp
      omega
    · exact hbound
    · rw [hBeq]
      have hidx : (((w :: buildBody 0 bl1 (sts.take bl1.length) ++
          (writeOne (afterOff 0 bl1) b).seg) ++
          [mkMarker (writeOne (afterOff 0 bl1) b).endOff
            (writeOne (afterOff 0 bl1) b).endPad
            ((sts.drop bl1.length).headD .Clean)]).length - 1) =
          (w :: buildBody 0 bl1 (sts.take bl1.length) ++
            (writeOne (afterOff 0 bl1) b).seg).length := by
        simp
        omega
      rw [hidx, getD_append_length]
      rw [markerOffset_mkMarker _ _ _ (by rw [hBlen] at hbound; omega)]
      have hoes := writeOne_endOff_seg (afterOff 0 bl1) b
      simp only [List.length_append, List.length_cons, List.length_nil]
      omega
    · exact hnotrim
  have hM : (w :: buildBody 0 (bl1 ++ [b]) sts).getD
      ((w :: buildBody 0 (bl1 ++ [b]) sts).length - 1) 0 =
      mkMarker (writeOne (afterOff 0 bl1) b).endOff
        (writeOne (afterOff 0 bl1) b).endPad
        ((sts.drop bl1.length).headD .Clean) := by
    rw [hBeq]
    have hidx : (((w :: buildBody 0 bl1 (sts.take bl1.length) ++
        (writeOne (afterOff 0 bl1) b).seg) ++
        [mkMarker (writeOne (afterOff 0 bl1) b).endOff
          (writeOne (afterOff 0 bl1) b).endPad
          ((sts.drop bl1.length).headD .Clean)]).length - 1) =
        (w :: buildBody 0 bl1 (sts.take bl1.length) ++
          (writeOne (afterOff 0 bl1) b).seg).length := by
      simp
      omega
    rw [hidx]
    exact getD_append_length _ _ _
  have hB3 : w :: buildBody 0 (bl1 ++ [b]) sts =
      (w :: buildBody 0 bl1 (sts.take bl1.length)) ++
        ((List.range' (afterOff 0 bl1 + 1)
          (computePadding (afterOff 0 bl1) (payloadWords b))).map mkPadding ++
          (payloadWords b ++
            [mkMarker (writeOne (afterOff 0 bl1) b).endOff
              (writeOne (afterOff 0 bl1) b).endPad
              ((sts.drop bl1.length).headD .Clean)])) := by
    rw [hBeq, hsegsplit]
    simp
  have hwPlen : (w :: buildBody 0 bl1 (sts.take bl1.length)).length =
      afterOff 0 bl1 + 1 := by
    simp only [List.length_cons]
    omega
  have hplen : ((List.range' (afterOff 0 bl1 + 1)
      (computePadding (afterOff 0 bl1) (payloadWords b))).map mkPadding).length =
      computePadding (afterOff 0 bl1) (payloadWords b) := by
    simp
  have hfs : findStart (w :: buildBody 0 (bl1 ++ [b]) sts)
      ((w :: buildBody 0 (bl1 ++ [b]) sts).length - 2) =
      some (afterOff 0 bl1 + computePadding (afterOff 0 bl1) (payloadWords b)) := by
    apply findStart_spec
    · rw [hBlen, heo]
      omega
    · rcases Nat.eq_zero_or_pos
        (computePadding (afterOff 0 bl1) (payloadWords b)) with hq | hq
      · rw [hq, Nat.add_zero]
        rw [hB3, getD_append_lt _ _ _ (by rw [hwPlen]; omega)]
        exact hlast1
      · obtain ⟨q, hq2⟩ : ∃ q,
            computePadding (afterOff 0 bl1) (payloadWords b) = q + 1 :=
          ⟨computePadding (afterOff 0 bl1) (payloadWords b) - 1, by omega⟩
        rw [hB3]
        have hidx : afterOff 0 bl1 +
            computePadding (afterOff 0 bl1) (payloadWords b) =
            (w :: buildBody 0 bl1 (sts.take bl1.length)).length + q := by
          rw [hwPlen]
          omega
        rw [hidx, getD_append_add]
        rw [getD_append_lt _ _ _ (by rw [hplen]; omega)]
        rw [rangeMap_getD _ _ _ (by omega)]
        rw [markerOffset_mkPadding _ (by
          rw [hBlen] at hbound
          rw [heo] at hbound
          omega)]
        rw [hwPlen]
    · intro j hj1 hj2
      rw [hB3]
      have hi1 : j - (afterOff 0 bl1 +
          computePadding (afterOff 0 bl1) (payloadWords b) + 1) <
          (payloadWords b).length := by
        rw [hBlen, heo] at hj2
        omega
      have hi2 : j = (w :: buildBody 0 bl1 (sts.take bl1.length)).length +
          (((List.range' (afterOff 0 bl1 + 1)
            (computePadding (afterOff 0 bl1) (payloadWords b))).map mkPadding).length +
            (j - (afterOff 0 bl1 +
              computePadding (afterOff 0 bl1) (payloadWords b) + 1))) := by
        rw [hwPlen, hplen]
        omega
      rw [hi2, getD_append_add, getD_append_add]
      rw [getD_append_lt _ _ _ hi1]
      have hcol3 := hcol _ hi1
      intro hcontra
      apply hcol3
      rw [hcontra, hwPlen, hplen]
      omega
  rw [nextBack, htrim]
  rw [if_neg (by rw [hBlen]; omega)]
  rw [hfs]
  dsimp only
  rw [hM]
  rw [paddingLen_mkMarker _ _ _ (by
    rw [hBlen] at hbound
    omega) hep7]
  have htake : (w :: buildBody 0 (bl1 ++ [b]) sts).take
      ((w :: buildBody 0 (bl1 ++ [b]) sts).length - 1) =
      w :: buildBody 0 bl1 (sts.take bl1.length) ++
        (writeOne (afterOff 0 bl1) b).seg := by
    rw [hBeq]
    have hidx : (((w :: buildBody 0 bl1 (sts.take bl1.length) ++
        (writeOne (afterOff 0 bl1) b).seg) ++
        [mkMarker (writeOne (afterOff 0 bl1) b).endOff
          (writeOne (afterOff 0 bl1) b).endPad
          ((sts.drop bl1.length).headD .Clean)]).length - 1) =
        (w :: buildBody 0 bl1 (sts.take bl1.length) ++
          (writeOne (afterOff 0 bl1) b).seg).length := by
      simp
      omega
    rw [hidx]
    exact List.take_left _ _
  rw [htake]
  have hprefix2len : (w :: buildBody 0 bl1 (sts.take bl1.length) ++
      (List.range' (afterOff 0 bl1 + 1)
        (computePadding (afterOff 0 bl1) (payloadWords b))).map mkPadding).length =
      afterOff 0 bl1 + computePadding (afterOff 0 bl1) (payloadWords b) + 1 := by
    simp only [List.length_append, hwPlen, hplen]
    omega
  have hdrop : (w :: buildBody 0 bl1 (sts.take bl1.length) ++
      (writeOne (afterOff 0 bl1) b).seg).drop
      (afterOff 0 bl1 + computePadding (afterOff 0 bl1) (payloadWords b) + 1) =
      payloadWords b := by
    rw [hsegsplit, ← List.append_assoc, ← hprefix2len]
    exact List.drop_left _ _
  rw [hdrop]
  rw [if_pos (by rw [bytesOfWords_length]; exact hepws)]
  have hrest : (w :: buildBody 0 (bl1 ++ [b]) sts).take
      (afterOff 0 bl1 + computePadding (afterOff 0 bl1) (payloadWords b) + 1) =
      w :: buildBody 0 bl1 (sts.take bl1.length) ++
        (List.range' (afterOff 0 bl1 + 1)
          (computePadding (afterOff 0 bl1) (payloadWords b))).map mkPadding := by
    have hB4 : w :: buildBody 0 (bl1 ++ [b]) sts =
        (w :: buildBody 0 bl1 (sts.take bl1.length) ++
          (List.range' (afterOff 0 bl1 + 1)
            (computePadding (afterOff 0 bl1) (payloadWords b))).map mkPadding) ++
          (payloadWords b ++
            [mkMarker (writeOne (afterOff 0 bl1) b).endOff
              (writeOne (afterOff 0 bl1) b).endPad
              ((sts.drop bl1.length).headD .Clean)]) := by
      rw [hB3]
      simp
    rw [hB4, ← hprefix2len]
    exact List.take_left _ _
  rw [hrest]
  have hitem2 : (bytesOfWords (payloadWords b)).take
      ((bytesOfWords (payloadWords b)).length -
        (writeOne (afterOff 0 bl1) b).endPad) = b := by
    rw [bytesOfWords_length]
    exact writeOne_blob_take b hbytes
  rw [hitem2]
  rw [writeOne_ret, hwPlen]

/-- Repeated `next_back` over a committed record chain (possibly followed by
a run of padding-only words left by a previous truncation) yields the
written blobs in reverse order, with no panic. -/
theorem revListF_buildBody (w : Nat) (hw : markerOffset w = 0) :
    ∀ (blobs : List (List Nat)) (sts : List State) (p2 fuel : Nat),
    (∀ bl ∈ blobs, ∀ x ∈ bl, x < 256) →
    (w :: buildBody 0 blobs sts).length + p2 ≤ 2 ^ 60 →
    (w :: buildBody 0 blobs sts).length + p2 ≤ fuel →
    revListF fuel (w :: buildBody 0 blobs sts ++
        (List.range' (w :: buildBody 0 blobs sts).length p2).map mkPadding)
      = some (((offsetsFrom 0 blobs).zip blobs).reverse) := by
  intro blobs
  induction blobs using List.reverseRecOn with
  | nil =>
      intro sts p2 fuel _ hbound hfuel
      simp only [buildBody, List.length_cons, List.length_nil]
      have hf1 : 1 ≤ fuel := by
        simp only [buildBody, List.length_cons, List.length_nil] at hfuel
        omega
      match fuel, hf1 with
      | fuel + 1, _ =>
        rw [revListF]
        have htrim : trimPadsF
            (([w] : List Nat) ++ (List.range' ([w] : List Nat).length p2).map
              mkPadding).length
            (([w] : List Nat) ++ (List.range' ([w] : List Nat).length p2).map
              mkPadding) 0 = [w] := by
          apply trimPads_strip
          · simp
          · simp
          · simpa using hbound
          · simpa using hw
          · intro ⟨h2, _, _, _⟩
            simp at h2
        have hmatch : nextBack (w :: ([] : List Nat) ++
            (List.range' (0 + 1) p2).map mkPadding) 0 = .done := by
          have he : w :: ([] : List Nat) ++ (List.range' (0 + 1) p2).map mkPadding =
              ([w] : List Nat) ++ (List.range' ([w] : List Nat).length p2).map
                mkPadding := by
            simp
          rw [he, nextBack, htrim]
          rw [if_pos (by simp)]
        simp only [List.nil_append] at hmatch ⊢
        rw [hmatch]
        simp [offsetsFrom]
  | append_singleton bl1 b ih =>
      intro sts p2 fuel hbytes hbound hfuel
      have hc : afterOff 0 bl1 = (buildBody 0 bl1 (sts.take bl1.length)).length := by
        simpa using afterOff_eq bl1 0 (sts.take bl1.length)
      have hsegl := writeOne_seg_length (afterOff 0 bl1) b
      have hbl : (buildBody 0 (bl1 ++ [b]) sts).length =
          (buildBody 0 bl1 (sts.take bl1.length)).length +
            ((writeOne (afterOff 0 bl1) b).seg.length + 1) := by
        rw [buildBody_append]
        simp [buildBody]
      have hlast1 : markerOffset ((w :: buildBody 0 bl1 (sts.take bl1.length)).getD
          (afterOff 0 bl1) 0) = afterOff 0 bl1 := by
        by_cases hbl1 : bl1 = []
        · subst hbl1
          simpa [buildBody, afterOff] using hw
        · obtain ⟨pad, hpad, hgl⟩ :=
            buildBody_getLast bl1 (sts.take bl1.length) 0 hbl1
          have hgl2 : (w :: buildBody 0 bl1 (sts.take bl1.length)).getLast? =
              some (mkMarker (0 + (buildBody 0 bl1 (sts.take bl1.length)).length)
                pad (lastStampState bl1 (sts.take bl1.length))) := by
            have hne : buildBody 0 bl1 (sts.take bl1.length) ≠ [] := by
              intro hnil
              rw [hnil] at hgl
              simp at hgl
            have hcons : w :: buildBody 0 bl1 (sts.take bl1.length) =
                [w] ++ buildBody 0 bl1 (sts.take bl1.length) := rfl
            rw [hcons, List.getLast?_append_of_ne_nil _ hne]
            exact hgl
          have hgd := getD_of_getLast? _ _ hgl2
          have hidx : (w :: buildBody 0 bl1 (sts.take bl1.length)).length - 1 =
              afterOff 0 bl1 := by
            simp only [List.length_cons]
            omega
          rw [hidx] at hgd
          rw [hgd]
          rw [markerOffset_mkMarker _ _ _ (by
            rw [List.length_cons, hbl] at hbound
            omega)]
          omega
      have hf1 : 1 ≤ fuel := by
        simp only [List.length_cons] at hfuel
        omega
      match fuel, hf1 with
      | fuel + 1, _ =>
        rw [revListF]
        rw [nextBack_snoc w hw bl1 b sts p2
          (fun x hx => hbytes b (by simp) x hx) hbound hlast1]
        dsimp only
        rw [ih (sts.take bl1.length)
          (computePadding (afterOff 0 bl1) (payloadWords b)) fuel
          (fun bl hbl2 x hx => hbytes bl (by simp [hbl2]) x hx)
          (by
            rw [List.length_cons, hbl] at hbound
            rw [writeOne_seg_length] at hbound
            simp only [List.length_cons]
            omega)
          (by
            rw [List.length_cons, hbl] at hfuel
            rw [writeOne_seg_length] at hfuel
            simp only [List.length_cons]
            omega)]
        rw [offsetsFrom_append]
        have hsingle : offsetsFrom (afterOff 0 bl1) [b] =
            [(writeOne (afterOff 0 bl1) b).ret] := by
          simp [offsetsFrom]
        rw [hsingle]
        rw [List.zip_append (by rw [offsetsFrom_length])]
        simp

/-- C7: on a committed store — one committed batch, or a sequence of
single committed `write_blob`s — the reverse iterator (`next_back` repeated
on a fresh `blobs()` iterator) yields exactly the same `(offset, blob)`
pairs as the forward iterator, in reverse order, and then `None` forever
(`revBlobs` returning `some` means no panic is reached and the iteration
terminates). -/
theorem C7_reverse_iterator (blobs : List (List Nat))
    (hbytes : ∀ b ∈ blobs, ∀ x ∈ b, x < 256)
    (hbound : (batchBody blobs).length ≤ 2 ^ 60) :
    revBlobs (batchBody blobs) = some ((blobsIter (batchBody blobs)).reverse) ∧
    revBlobs (singlesBody blobs) = some ((blobsIter (singlesBody blobs)).reverse) := by
  have hlen : (batchBody blobs).length =
      1 + (buildBody 0 blobs (stampStates blobs)).length := by
    rw [batchBody]
    simp only [List.length_cons]
    omega
  have hlen2 : (singlesBody blobs).length =
      1 + (buildBody 0 blobs (List.replicate blobs.length .Clean)).length := by
    rw [singlesBody]
    simp only [List.length_cons]
    omega
  have hlenst : (buildBody 0 blobs (List.replicate blobs.length .Clean)).length =
      (buildBody 0 blobs (stampStates blobs)).length :=
    buildBody_length_states blobs 0 _ _
  constructor
  · rw [batchBody]
    rw [blobsIter_buildBody blobs (stampStates blobs) hbytes (by omega)]
    rw [revBlobs]
    have h := revListF_buildBody (mkMarker 0 0 .Clean) markerOffset_zero blobs
      (stampStates blobs) 0
      (mkMarker 0 0 .Clean :: buildBody 0 blobs (stampStates blobs)).length
      hbytes
      (by simp only [List.length_cons]; omega)
      (by omega)
    simpa using h
  · rw [singlesBody]
    rw [blobsIter_buildBody blobs (List.replicate blobs.length .Clean) hbytes
      (by omega)]
    rw [revBlobs]
    have h := revListF_buildBody (mkMarker 0 0 .Clean) markerOffset_zero blobs
      (List.replicate blobs.length .Clean) 0
      (mkMarker 0 0 .Clean ::
        buildBody 0 blobs (List.replicate blobs.length .Clean)).length
      hbytes
      (by simp only [List.length_cons]; omega)
      (by omega)
    simpa using h

/-- Witness for C7 at a two-blob batch whose first end marker is Dirty with
padding length 7 (blob `[42]`), the configuration the trim loop must not
mistake for padding. -/
theorem C7_reverse_iterator_witness :
    revBlobs (batchBody [[42], []]) =
        some ((blobsIter (batchBody [[42], []])).reverse) ∧
      revBlobs (singlesBody [[42], []]) =
        some ((blobsIter (singlesBody [[42], []])).reverse) :=
  C7_reverse_iterator [[42], []] (by decide) (by decide)

end Breccia
